import Mathlib

/-!
Verification development for the `nar-dev-utils` string-processing and
iterator core: the affix-match dictionaries
(`src/str_processing/x_fix_match/*`), the search primitives
(`linear_search_by`, `binary_search`) and the buffered lookahead cursor
(`src/iterators/buffer.rs`).

Rust strings are embedded as lists of characters (`Str`); `String::cmp`
(lexicographic) is embedded as `cmpStr`, which orders by code points the
way byte-wise UTF-8 comparison does.  `Result<usize, usize>` is embedded
as `SearchResult`.  Vectors become lists; `Vec::insert` becomes
`insert_at` (total; all call sites use an index bounded by the length,
where the two agree).
-/

/-- Rust `String`, viewed as its sequence of characters. -/
abbrev Str := List Char

/-- Rust `Result<usize, usize>` as returned by the search functions:
`ok i` = the affix was found at index `i`; `err i` = not found, and `i`
is the position where it should be inserted. -/
inductive SearchResult where
  | ok (i : Nat)
  | err (i : Nat)
deriving DecidableEq, Repr

/-- `Ord::cmp` on characters (`char` compares by code point). -/
def cmpChar (a b : Char) : Ordering :=
  if a < b then .lt else if a = b then .eq else .gt

/-- `Ord::cmp` on strings: lexicographic comparison, as for Rust `String`. -/
def cmpStr : Str → Str → Ordering
  | [], [] => .eq
  | [], _ :: _ => .lt
  | _ :: _, [] => .gt
  | a :: as, b :: bs =>
    match cmpChar a b with
    | .eq => cmpStr as bs
    | o => o

/-- `Vec::insert(index, element)`: shifts everything at or after `index`
to the right.  (Total function; at call sites `index ≤ length` always
holds, where this agrees with the Rust behaviour.) -/
def insert_at : Nat → α → List α → List α
  | 0, a, l => a :: l
  | _ + 1, a, [] => [a]
  | n + 1, a, x :: xs => x :: insert_at n a xs

/-- `linear_search_by` from `x_fix_match/common.rs` (the default search
backend): scan left to right; stop with `ok i` on the first `Equal`,
with `err i` on the first `Less`, else `err len`.  The loop with its
running index is rendered as structural recursion that bumps the
returned index. -/
def linear_search_by (arr : List T1) (target : T2) (cmp : T2 → T1 → Ordering) :
    SearchResult :=
  match arr with
  | [] => .err 0
  | x :: xs =>
    match cmp target x with
    | .eq => .ok 0
    | .lt => .err 0
    | .gt =>
      match linear_search_by xs target cmp with
      | .ok i => .ok (i + 1)
      | .err i => .err (i + 1)

/-! ### The affix-match dictionary `XFixMatchDict` (`x_fix_dict.rs`) -/

/-- `XFixMatchDict`: a vector of affixes kept in ascending lexicographic
order by `insert`. -/
structure XFixMatchDict where
  x_fixes : List Str
deriving DecidableEq, Repr

namespace XFixMatchDict

/-- `XFixMatchDict::new`: collects the given iterable directly into the
backing vector (no sorting, no deduplication). -/
def new (prefixes : List Str) : XFixMatchDict :=
  ⟨prefixes⟩

/-- `XFixMatchDict::search` (the built-in linear variant, lines 93–108):
first `Equal` ⇒ found, first `Less` ⇒ insertion point. -/
def search (d : XFixMatchDict) (x_fix : Str) : SearchResult :=
  linear_search_by d.x_fixes x_fix (fun t e => cmpStr t e)

/-- `XFixMatchDict::has`. -/
def has (d : XFixMatchDict) (x_fix : Str) : Bool :=
  match d.search x_fix with
  | .ok _ => true
  | .err _ => false

/-- `XFixMatchDict::insert`: no-op when found, otherwise insert at the
returned position.  (The Rust function returns `()`.) -/
def insert (d : XFixMatchDict) (x_fix : Str) : XFixMatchDict :=
  match d.search x_fix with
  | .ok _ => d
  | .err index => ⟨insert_at index x_fix d.x_fixes⟩

/-- `XFixMatchDict::iter_x_fixes`: iterate the sorted store in reverse,
longest-first among mutually-prefixing affixes. -/
def iter_x_fixes (d : XFixMatchDict) : List Str :=
  d.x_fixes.reverse

/-- `PrefixMatch::match_prefix` (trait default, `traits.rs` lines 76–85)
as instantiated by `XFixMatchDict`: first affix in `iter_x_fixes` order
that is a literal p-refix of the candidate. -/
def matchPrefix (d : XFixMatchDict) (to_match : Str) : Option Str :=
  d.iter_x_fixes.find? (fun term => term.isPrefixOf to_match)

/-- `SuffixMatch::match_suffix` as instantiated by `XFixMatchDict`. -/
def matchSuffix (d : XFixMatchDict) (to_match : Str) : Option Str :=
  d.iter_x_fixes.find? (fun term => term.isSuffixOf to_match)

end XFixMatchDict

/-- Building a dictionary by a sequence of `insert` calls starting from
the empty dictionary (`XFixMatchDict::default()`). -/
def buildDict (l : List Str) : XFixMatchDict :=
  l.foldl XFixMatchDict.insert ⟨[]⟩

/-! ### Sortedness predicates -/

/-- Backing store in strictly ascending lexicographic order
(`XFixMatchDict`'s orientation). -/
abbrev AscStr (l : List Str) : Prop :=
  l.Pairwise (fun x y => cmpStr x y = .lt)

/-- Backing store in strictly descending order of `key`
(`PrefixMatchDictPair`'s orientation: later entries have smaller keys). -/
abbrev DescBy (key : α → Str) (l : List α) : Prop :=
  l.Pairwise (fun x y => cmpStr (key y) (key x) = .lt)

/-! ### The paired p-refix dictionary (`x_fix_match/prefix_match.rs`) -/

/-- `PrefixMatchDictPair<T>`: entries `(affix, payload)` kept in strictly
descending lexicographic order of the affix, so that plain forward
iteration tests longer mutually-prefixing affixes first. -/
structure PrefixMatchDictPair (T : Type) where
  prefixes : List (Str × T)
deriving DecidableEq, Repr

namespace PrefixMatchDictPair

/-- `PrefixMatchDictPair::search`: `search_by` with the comparator
`cmp_prefix(existed, prefix) = existed.0.cmp(prefix)` — the swapped
orientation that maintains the descending store. -/
def search (d : PrefixMatchDictPair T) (p : Str) : SearchResult :=
  linear_search_by d.prefixes p (fun t e => cmpStr e.fst t)

/-- `PrefixMatchDictPair::has`. -/
def has (d : PrefixMatchDictPair T) (p : Str) : Bool :=
  match d.search p with
  | .ok _ => true
  | .err _ => false

/-- `PrefixMatchDictPair::insert`: returns `Some(index)` when the entry
was inserted at `index`, `None` when its affix was already present (the
dictionary is then left unchanged). -/
def insert (d : PrefixMatchDictPair T) (term : Str × T) :
    PrefixMatchDictPair T × Option Nat :=
  match d.search term.fst with
  | .err index => (⟨insert_at index term d.prefixes⟩, some index)
  | .ok _ => (d, none)

/-- `PrefixMatchDictPair::iter_terms`: forward iteration (the store is
already in longest-first order for mutually-prefixing affixes). -/
def iter_terms (d : PrefixMatchDictPair T) : List (Str × T) :=
  d.prefixes

/-- `PrefixMatch::match_prefix` as instantiated by the paired dictionary. -/
def matchPrefix (d : PrefixMatchDictPair T) (to_match : Str) : Option (Str × T) :=
  d.iter_terms.find? (fun term => term.fst.isPrefixOf to_match)

/-- `PrefixMatchDictPair::new`: folds `insert` over the given entries,
starting from the empty dictionary. -/
def new (l : List (Str × T)) : PrefixMatchDictPair T :=
  l.foldl (fun d term => (d.insert term).1) ⟨[]⟩

end PrefixMatchDictPair

/-- Building a paired dictionary by direct `insert` calls from
`Default::default()` (as the `prefix_match_dict_pair!` macro does). -/
def buildPairDict (l : List (Str × T)) : PrefixMatchDictPair T :=
  l.foldl (fun d term => (d.insert term).1) ⟨[]⟩

/-! ### The bidirectional dictionary (`bi_fix_dict.rs`) -/

/-- `BiFixMatchDictPair`: a `PrefixMatchDictPair` owning `(prefix,
suffix)` entries, plus the suffix-ordered secondary index of positions
into the primary store. -/
structure BiFixMatchDictPair where
  prefix_dict : PrefixMatchDictPair Str
  suffix_ordered_refs : List Nat
deriving DecidableEq, Repr

namespace BiFixMatchDictPair

/-- `BiFixMatchDictPair::get_term_by_index`. -/
def get_term_by_index (d : BiFixMatchDictPair) (index : Nat) :
    Option (Str × Str) :=
  d.prefix_dict.prefixes[index]?

/-- The entry a secondary-index position refers to.  The source
`.unwrap()`s `get_term_by_index`; under the index invariant proved below
every stored position is in bounds, where this total variant agrees. -/
def getTermD (d : BiFixMatchDictPair) (index : Nat) : Str × Str :=
  d.prefix_dict.prefixes.getD index ([], [])

/-- `BiFixMatchDictPair::search_suffix`: lower-bound search on the
secondary index, comparing by the suffix of the referenced entry
(`cmp_suffix(term_ref, suffix)` — again the descending orientation). -/
def searchSuffix (d : BiFixMatchDictPair) (suffix : Str) : SearchResult :=
  linear_search_by d.suffix_ordered_refs suffix
    (fun t i => cmpStr (d.getTermD i).snd t)

/-- `BiFixMatchDictPair::search_prefix`: forwarded to the primary store. -/
def searchPrefix (d : BiFixMatchDictPair) (p : Str) : SearchResult :=
  d.prefix_dict.search p

/-- `BiFixMatchDictPair::insert`: reject a duplicate suffix, then insert
into the primary store; on success bump every stored secondary position
`≥` the primary insertion point by one before inserting the new
position.  Returns whether insertion occurred. -/
def insert (d : BiFixMatchDictPair) (term : Str × Str) :
    BiFixMatchDictPair × Bool :=
  match d.searchSuffix term.snd with
  | .err i_insert =>
    match d.prefix_dict.insert term with
    | (pd, some i_term) =>
      (⟨pd, insert_at i_insert i_term
          (d.suffix_ordered_refs.map
            (fun j => if i_term ≤ j then j + 1 else j))⟩, true)
    | (_, none) => (d, false)
  | .ok _ => (d, false)

/-- `SuffixMatch::suffix_terms` for the bidirectional dictionary:
entries in the order of the secondary index. -/
def suffix_terms (d : BiFixMatchDictPair) : List (Str × Str) :=
  d.suffix_ordered_refs.map d.getTermD

/-- `PrefixMatch::match_prefix` for the bidirectional dictionary
(iterates the primary store). -/
def matchPrefix (d : BiFixMatchDictPair) (to_match : Str) : Option (Str × Str) :=
  d.prefix_dict.matchPrefix to_match

/-- `SuffixMatch::match_suffix` for the bidirectional dictionary
(iterates the secondary index). -/
def matchSuffix (d : BiFixMatchDictPair) (to_match : Str) : Option (Str × Str) :=
  d.suffix_terms.find? (fun term => term.snd.isSuffixOf to_match)

/-- `BiFixMatchDictPair::new`: fold `insert` over the given pairs, then
additionally attempt to insert the empty pair `("", "")`. -/
def new (bi_fixes : List (Str × Str)) : BiFixMatchDictPair :=
  let dict : BiFixMatchDictPair :=
    bi_fixes.foldl (fun d term => (d.insert term).1) ⟨⟨[]⟩, []⟩
  ((dict.insert ([], [])).1)

end BiFixMatchDictPair

/-- Building a bidirectional dictionary by direct `insert` calls from
`Default::default()` (as the `bi_fix_match_dict_pair!` macro does) —
without the extra empty pair that `new` adds. -/
def buildBiDict (l : List (Str × Str)) : BiFixMatchDictPair :=
  l.foldl (fun d term => (BiFixMatchDictPair.insert d term).1) ⟨⟨[]⟩, []⟩

/-- The secondary-index shift performed on insertion: every stored
position `≥ i_term` is bumped by one. -/
def shiftIdx (i_term j : Nat) : Nat :=
  if i_term ≤ j then j + 1 else j

/-- Invariant tying the secondary index to the primary store: the
primary store is descending by p-refix, every stored position is in
bounds, the positions are distinct and cover the whole store, and the
referenced entries are descending by suffix. -/
structure BiInv (d : BiFixMatchDictPair) : Prop where
  pd_sorted : DescBy Prod.fst d.prefix_dict.prefixes
  refs_lt : ∀ r ∈ d.suffix_ordered_refs, r < d.prefix_dict.prefixes.length
  refs_nodup : d.suffix_ordered_refs.Nodup
  refs_cover : ∀ j, j < d.prefix_dict.prefixes.length → j ∈ d.suffix_ordered_refs
  sfx_sorted : DescBy Prod.snd d.suffix_terms

/-! ### `binary_search` from `algorithms.rs` (the `algorithms`-feature
backend, also used by the legacy `str_processing/prefix_match.rs` dict).

The Rust function begins with `let mut right = arr.len() - 1;` on
`usize`: on an empty array this underflows — an abort (overflow panic in
debug; in release it wraps and the subsequent `arr[mid]` indexing
aborts).  Aborts are modelled as `none`; `some` is a normal return. -/

/-- The exit path: `Err(if arr[mid] < *target { mid + 1 } else { mid })`. -/
def binary_search_exit (arr : List Str) (target : Str) (mid : Nat) :
    Option SearchResult :=
  match arr[mid]? with
  | none => none
  | some x => some (.err (if cmpStr x target = .lt then mid + 1 else mid))

/-- The `while left <= right` loop; `mid` carries the value the loop
variable has after the previous iteration, read by the exit path. -/
def binary_search_go (arr : List Str) (target : Str)
    (left right mid : Nat) : Option SearchResult :=
  if _h : left ≤ right then
    let mid' := left + (right - left) / 2
    match arr[mid']? with
    | none => none
    | some x =>
      match cmpStr target x with
      | .eq => some (.ok mid')
      | .gt => binary_search_go arr target (mid' + 1) right mid'
      | .lt =>
        if mid' = 0 then binary_search_exit arr target mid'
        else binary_search_go arr target left (mid' - 1) mid'
  else binary_search_exit arr target mid
termination_by right + 1 - left
decreasing_by
  · omega
  · have hd : (right - left) / 2 ≤ right - left := Nat.div_le_self _ _
    omega

/-- `binary_search` (`algorithms.rs` lines 12–37). -/
def binary_search (arr : List Str) (target : Str) : Option SearchResult :=
  match arr.length with
  | 0 => none
  | n + 1 => binary_search_go arr target 0 n (0 + (n - 0) / 2)

/-- The legacy `PrefixMatchDict::insert`
(`str_processing/prefix_match.rs` lines 101–110) over its backing store:
binary-search the affix, skip when found, insert at the returned
position otherwise; a panic in `binary_search` propagates. -/
def PrefixMatchDict_insert_bin (prefixes : List Str) (p : Str) :
    Option (List Str) :=
  match binary_search prefixes p with
  | none => none
  | some (.ok _) => some prefixes
  | some (.err index) => some (insert_at index p prefixes)

/-! ### The buffered lookahead cursor (`iterators/buffer.rs`).

The wrapped iterator is embedded as the list of elements it has yet to
produce; `next()` on an exhausted iterator keeps returning `None`
(character iterators are fused).  The `VecDeque` buffer is a list with
the oldest element at the front. -/

structure BufferIterator (T : Type) where
  iterator : List T
  buffer : List T
  head : Nat
  is_began : Bool
  is_ended : Bool
deriving DecidableEq, Repr

namespace BufferIterator

/-- `BufferIterator::new`. -/
def new (iterator : List T) : BufferIterator T :=
  ⟨iterator, [], 0, false, false⟩

/-- `BufferIterator::len_buffer`. -/
def len_buffer (st : BufferIterator T) : Nat :=
  st.buffer.length

/-- `BufferIterator::is_buffer_empty`. -/
def is_buffer_empty (st : BufferIterator T) : Bool :=
  st.buffer.isEmpty

/-- `BufferIterator::buffer_head`: `(head + 1) - buffer.len()` on
`usize`; on every reachable state `buffer.len() ≤ head + 1` (proved
below), where truncated subtraction agrees with `usize` arithmetic. -/
def buffer_head (st : BufferIterator T) : Nat :=
  (st.head + 1) - st.buffer.length

/-- `BufferIterator::head_next` (the lookahead pull): take one element
from the inner iterator; on the first success set `is_began` without
touching `head`, on later successes increment `head`; append the
element to the buffer; on exhaustion set `is_ended`.  Also returns what
the Rust function returns (a reference to the pushed element / `None`). -/
def head_next (st : BufferIterator T) : BufferIterator T × Option T :=
  match st.iterator with
  | [] =>
    (⟨st.iterator, st.buffer, st.head, st.is_began, true⟩, none)
  | item :: rest =>
    if st.is_began then
      (⟨rest, st.buffer ++ [item], st.head + 1, true, st.is_ended⟩, some item)
    else
      (⟨rest, st.buffer ++ [item], st.head, true, st.is_ended⟩, some item)

/-- `BufferIterator::buffer_next` (the consuming step): refill via
`head_next` when the buffer is empty, then pop the buffer front. -/
def buffer_next (st : BufferIterator T) : BufferIterator T × Option T :=
  let st1 := if st.is_buffer_empty then (st.head_next).1 else st
  match st1.buffer with
  | [] => (st1, none)
  | x :: rest =>
    (⟨st1.iterator, rest, st1.head, st1.is_began, st1.is_ended⟩, some x)

end BufferIterator

/-- One cursor mutation: a `head_next` (peek/extend) or a `buffer_next`
(consume) call, result discarded. -/
inductive CursorOp where
  | peek
  | consume
deriving DecidableEq, Repr

/-- Run a sequence of cursor operations. -/
def runOps (st : BufferIterator T) : List CursorOp → BufferIterator T
  | [] => st
  | CursorOp.peek :: ops => runOps (st.head_next).1 ops
  | CursorOp.consume :: ops => runOps (st.buffer_next).1 ops

/-- Phase one of `starts_with`: compare the pattern against the buffered
elements.  Returns `some result` when the comparison finished inside
the buffer, `none` plus the remaining pattern when the buffer ran out;
the final component counts the pattern elements consumed (the
`inspect` counter of `skip_when_starts_with`). -/
def swBuffer [DecidableEq T] : List T → List T → Option Bool × List T × Nat
  | _, [] => (some true, [], 0)
  | [], pat => (none, pat, 0)
  | s :: bs, o :: ps =>
    if s ≠ o then (some false, ps, 1)
    else
      let r := swBuffer bs ps
      (r.1, r.2.1, r.2.2 + 1)

/-- Phase two of `starts_with`: compare the remaining pattern against
elements pulled live from the inner iterator via `head_next`. -/
def swSource [DecidableEq T] (st : BufferIterator T) :
    List T → BufferIterator T × Bool × Nat
  | [] => (st, true, 0)
  | o :: ps =>
    match st.head_next with
    | (st1, none) => (st1, false, 1)
    | (st1, some s) =>
      if s ≠ o then (st1, false, 1)
      else
        let r := swSource st1 ps
        (r.1, r.2.1, r.2.2 + 1)

/-- `BufferIterator::starts_with`: buffer elements first, then live
pulls; additionally returns the number of pattern elements consumed. -/
def starts_with [DecidableEq T] (st : BufferIterator T) (pattern : List T) :
    BufferIterator T × Bool × Nat :=
  match swBuffer st.buffer pattern with
  | (some b, _, c) => (st, b, c)
  | (none, rem, c) =>
    let r := swSource st rem
    (r.1, r.2.1, c + r.2.2)

/-- `n` sequential `buffer_next` calls, results discarded (the commit
loop of `skip_when_starts_with`, and the claim's reference behaviour). -/
def consumeN : Nat → BufferIterator T → BufferIterator T
  | 0, st => st
  | n + 1, st => consumeN n (st.buffer_next).1

/-- `BufferIterator::skip_when_starts_with`: probe via `starts_with`
with a counting pattern iterator; on success commit by consuming the
counted number of elements. -/
def skip_when_starts_with [DecidableEq T] (st : BufferIterator T)
    (pattern : List T) : BufferIterator T × Bool :=
  let r := starts_with st pattern
  if r.2.1 then (consumeN r.2.2 r.1, true) else (r.1, false)

/-- The inductive invariant: the buffer never outgrows `head + 1`, and
before the first pull the cursor is empty with `head = 0`. -/
abbrev CursorInv (st : BufferIterator T) : Prop :=
  st.buffer.length ≤ st.head + 1 ∧
    (st.is_began = false → st.buffer = [] ∧ st.head = 0)

/-- A state with one extra element at the buffer front; `buffer_next`
pops exactly this element, and the probing operations never look at it. -/
def addFront (a : T) (st : BufferIterator T) : BufferIterator T :=
  ⟨st.iterator, a :: st.buffer, st.head, st.is_began, st.is_ended⟩

/-! ### Order lemmas for `cmpChar` / `cmpStr` -/

theorem cmpChar_eq_iff {a b : Char} : cmpChar a b = .eq ↔ a = b := by
  unfold cmpChar
  rcases lt_trichotomy a b with h | h | h
  · simp [h, ne_of_lt h]
  · simp [h, lt_irrefl]
  · simp [not_lt_of_gt h, (ne_of_lt h).symm]

theorem cmpChar_lt_iff {a b : Char} : cmpChar a b = .lt ↔ a < b := by
  unfold cmpChar
  rcases lt_trichotomy a b with h | h | h
  · simp [h]
  · simp [h, lt_irrefl]
  · simp [not_lt_of_gt h, (ne_of_lt h).symm]

theorem cmpChar_gt_iff {a b : Char} : cmpChar a b = .gt ↔ b < a := by
  unfold cmpChar
  rcases lt_trichotomy a b with h | h | h
  · simp [h, ne_of_lt h, not_lt_of_gt h]
  · simp [h, lt_irrefl]
  · simp [not_lt_of_gt h, (ne_of_lt h).symm, h]

theorem cmpChar_ne_of_lt {a b : Char} (h : cmpChar a b = .lt) : a ≠ b := by
  intro he
  rw [he, cmpChar_eq_iff.2 rfl] at h
  exact absurd h (by simp)

theorem cmpChar_ne_of_gt {a b : Char} (h : cmpChar a b = .gt) : a ≠ b := by
  intro he
  rw [he, cmpChar_eq_iff.2 rfl] at h
  exact absurd h (by simp)

theorem cmpStr_eq_iff : ∀ {s t : Str}, cmpStr s t = .eq ↔ s = t := by
  intro s
  induction s with
  | nil => intro t; cases t <;> simp [cmpStr]
  | cons a as ih =>
    intro t
    cases t with
    | nil => simp [cmpStr]
    | cons b bs =>
      cases h : cmpChar a b with
      | lt => simp [cmpStr, h, cmpChar_ne_of_lt h]
      | gt => simp [cmpStr, h, cmpChar_ne_of_gt h]
      | eq =>
        rw [cmpChar_eq_iff] at h
        subst h
        simp [cmpStr, cmpChar_eq_iff.2 rfl, ih]

theorem cmpStr_refl (s : Str) : cmpStr s s = .eq := cmpStr_eq_iff.2 rfl

theorem cmpStr_gt_iff_lt : ∀ {s t : Str}, cmpStr s t = .gt ↔ cmpStr t s = .lt := by
  intro s
  induction s with
  | nil => intro t; cases t <;> simp [cmpStr]
  | cons a as ih =>
    intro t
    cases t with
    | nil => simp [cmpStr]
    | cons b bs =>
      cases h : cmpChar a b with
      | lt =>
        rw [cmpChar_lt_iff] at h
        simp [cmpStr, cmpChar_lt_iff.2 h, cmpChar_gt_iff.2 h]
      | gt =>
        rw [cmpChar_gt_iff] at h
        simp [cmpStr, cmpChar_gt_iff.2 h, cmpChar_lt_iff.2 h]
      | eq =>
        rw [cmpChar_eq_iff] at h
        subst h
        simpa [cmpStr, cmpChar_eq_iff.2 rfl] using ih

theorem cmpStr_lt_trans : ∀ {s t u : Str},
    cmpStr s t = .lt → cmpStr t u = .lt → cmpStr s u = .lt := by
  intro s
  induction s with
  | nil =>
    intro t u h1 h2
    cases u with
    | nil =>
      cases t with
      | nil => exact h1
      | cons b bs => simp [cmpStr] at h2
    | cons c cs => simp [cmpStr]
  | cons a as ih =>
    intro t u h1 h2
    cases t with
    | nil => simp [cmpStr] at h1
    | cons b bs =>
      cases u with
      | nil => simp [cmpStr] at h2
      | cons c cs =>
        cases hab : cmpChar a b with
        | gt => simp [cmpStr, hab] at h1
        | lt =>
          rw [cmpChar_lt_iff] at hab
          cases hbc : cmpChar b c with
          | gt => simp [cmpStr, hbc] at h2
          | lt =>
            rw [cmpChar_lt_iff] at hbc
            simp [cmpStr, cmpChar_lt_iff.2 (lt_trans hab hbc)]
          | eq =>
            rw [cmpChar_eq_iff] at hbc
            subst hbc
            simp [cmpStr, cmpChar_lt_iff.2 hab]
        | eq =>
          rw [cmpChar_eq_iff] at hab
          subst hab
          simp only [cmpStr, cmpChar_eq_iff.2 rfl] at h1
          cases hac : cmpChar a c with
          | lt => simp [cmpStr, hac]
          | eq =>
            rw [cmpChar_eq_iff] at hac
            subst hac
            simp only [cmpStr, cmpChar_eq_iff.2 rfl] at h2 ⊢
            exact ih h1 h2
          | gt =>
            simp only [cmpStr, hac] at h2 ⊢
            exact absurd h2 (by simp)

theorem cmpStr_ne_of_lt {s t : Str} (h : cmpStr s t = .lt) : s ≠ t := by
  intro he
  subst he
  rw [cmpStr_refl s] at h
  exact absurd h (by simp)

/-- A proper p-refix is lexicographically smaller. -/
theorem cmpStr_lt_of_proper_pfx : ∀ {s t : Str}, s <+: t → s ≠ t → cmpStr s t = .lt := by
  intro s
  induction s with
  | nil =>
    intro t _ hne
    cases t with
    | nil => exact absurd rfl hne
    | cons b bs => simp [cmpStr]
  | cons a as ih =>
    intro t hp hne
    cases t with
    | nil => exact absurd (List.prefix_nil.1 hp) (by simp)
    | cons b bs =>
      rcases (List.cons_prefix_cons.1 hp) with ⟨rfl, hp'⟩
      simp only [cmpStr, cmpChar_eq_iff.2 rfl]
      exact ih hp' (by intro he; exact hne (by rw [he]))

/-- Two p-refixes of the same candidate are comparable; the smaller (in
lexicographic order) is a p-refix of the other. -/
theorem prefix_of_prefix_of_lt {s t c : Str} (hs : s <+: c) (ht : t <+: c)
    (hlt : cmpStr s t = .lt) : s <+: t := by
  rcases List.prefix_or_prefix_of_prefix hs ht with h | h
  · exact h
  · rcases eq_or_ne t s with rfl | hne
    · exact absurd rfl (cmpStr_ne_of_lt hlt)
    · exact absurd (cmpStr_gt_iff_lt.2 (cmpStr_lt_of_proper_pfx h hne)) (by rw [hlt]; simp)

/-! ### Lemmas about `insert_at` -/

theorem mem_insert_at : ∀ {n : Nat} {l : List α} {a b : α},
    b ∈ insert_at n a l ↔ b = a ∨ b ∈ l := by
  intro n
  induction n with
  | zero => intro l a b; simp [insert_at]
  | succ n ih =>
    intro l a b
    cases l with
    | nil => simp [insert_at]
    | cons x xs =>
      simp only [insert_at, List.mem_cons, ih]
      tauto

theorem length_insert_at : ∀ {n : Nat} {l : List α} {a : α}, n ≤ l.length →
    (insert_at n a l).length = l.length + 1 := by
  intro n
  induction n with
  | zero => intro l a _; simp [insert_at]
  | succ n ih =>
    intro l a h
    cases l with
    | nil => exact absurd h (by simp)
    | cons x xs =>
      simp only [insert_at, List.length_cons]
      rw [ih (Nat.le_of_succ_le_succ h)]

theorem map_insert_at (f : α → β) : ∀ {n : Nat} {l : List α} {a : α},
    (insert_at n a l).map f = insert_at n (f a) (l.map f) := by
  intro n
  induction n with
  | zero => intro l a; simp [insert_at]
  | succ n ih =>
    intro l a
    cases l with
    | nil => simp [insert_at]
    | cons x xs => simp [insert_at, ih]

theorem pairwise_insert_at {R : α → α → Prop} : ∀ {n : Nat} {l : List α} {a : α},
    l.Pairwise R → (∀ x ∈ l.take n, R x a) → (∀ x ∈ l.drop n, R a x) →
    (insert_at n a l).Pairwise R := by
  intro n
  induction n with
  | zero =>
    intro l a hp _ hdrop
    exact List.pairwise_cons.2 ⟨by simpa using hdrop, hp⟩
  | succ n ih =>
    intro l a hp htake hdrop
    cases l with
    | nil => simp [insert_at]
    | cons x xs =>
      rcases List.pairwise_cons.1 hp with ⟨hx, hxs⟩
      refine List.pairwise_cons.2 ⟨?_, ?_⟩
      · intro y hy
        rcases mem_insert_at.1 hy with rfl | hy'
        · exact htake x (by simp)
        · exact hx y hy'
      · exact ih hxs (fun z hz => htake z (by simp [hz])) (by simpa using hdrop)

theorem nodup_insert_at : ∀ {n : Nat} {l : List α} {a : α},
    l.Nodup → a ∉ l → (insert_at n a l).Nodup := by
  intro n
  induction n with
  | zero => intro l a hn ha; simp [insert_at, hn, ha]
  | succ n ih =>
    intro l a hn ha
    cases l with
    | nil => simp [insert_at]
    | cons x xs =>
      rcases List.pairwise_cons.1 hn with ⟨hx, hxs⟩
      refine List.pairwise_cons.2 ⟨?_, ?_⟩
      · intro y hy
        rcases mem_insert_at.1 hy with rfl | hy'
        · intro he; exact ha (by simp [he])
        · exact hx y hy'
      · exact ih hxs (fun hmem => ha (by simp [hmem]))

theorem getD_insert_at_of_lt : ∀ {n k : Nat} {l : List α} {a d : α}, k < n →
    n ≤ l.length → (insert_at n a l).getD k d = l.getD k d := by
  intro n
  induction n with
  | zero => intro k l a d h _; exact absurd h (by simp)
  | succ n ih =>
    intro k l a d h hn
    cases l with
    | nil => exact absurd hn (by simp)
    | cons x xs =>
      cases k with
      | zero => simp [insert_at]
      | succ k =>
        simp only [insert_at, List.getD_cons_succ]
        exact ih (Nat.lt_of_succ_lt_succ h) (Nat.le_of_succ_le_succ hn)

theorem getD_insert_at_self : ∀ {n : Nat} {l : List α} {a d : α}, n ≤ l.length →
    (insert_at n a l).getD n d = a := by
  intro n
  induction n with
  | zero => intro l a d _; simp [insert_at]
  | succ n ih =>
    intro l a d h
    cases l with
    | nil => exact absurd h (by simp)
    | cons x xs =>
      simp only [insert_at, List.getD_cons_succ]
      exact ih (Nat.le_of_succ_le_succ h)

theorem getD_insert_at_of_ge : ∀ {n k : Nat} {l : List α} {a d : α}, n ≤ k →
    (insert_at n a l).getD (k + 1) d = l.getD k d := by
  intro n
  induction n with
  | zero => intro k l a d _; simp [insert_at]
  | succ n ih =>
    intro k l a d h
    cases l with
    | nil =>
      cases k with
      | zero => exact absurd h (by simp)
      | succ k => simp [insert_at, List.getD]
    | cons x xs =>
      cases k with
      | zero => exact absurd h (by simp)
      | succ k =>
        simp only [insert_at, List.getD_cons_succ]
        exact ih (Nat.le_of_succ_le_succ h)

/-! ### Characterization of `linear_search_by` -/

theorem linear_search_by_ok {arr : List T1} {t : T2} {cmp : T2 → T1 → Ordering} :
    ∀ {i : Nat}, linear_search_by arr t cmp = .ok i →
      ∃ x, arr[i]? = some x ∧ cmp t x = .eq := by
  induction arr with
  | nil => intro i h; simp [linear_search_by] at h
  | cons x xs ih =>
    intro i h
    simp only [linear_search_by] at h
    cases hc : cmp t x with
    | eq =>
      rw [hc] at h
      cases h
      exact ⟨x, by simp, hc⟩
    | lt => rw [hc] at h; cases h
    | gt =>
      rw [hc] at h
      cases hr : linear_search_by xs t cmp with
      | ok j =>
        rw [hr] at h
        cases h
        rcases ih hr with ⟨y, hy, hcy⟩
        exact ⟨y, by simpa using hy, hcy⟩
      | err j => rw [hr] at h; cases h

theorem linear_search_by_err_le {arr : List T1} {t : T2} {cmp : T2 → T1 → Ordering} :
    ∀ {i : Nat}, linear_search_by arr t cmp = .err i → i ≤ arr.length := by
  induction arr with
  | nil => intro i h; simp only [linear_search_by] at h; cases h; simp
  | cons x xs ih =>
    intro i h
    simp only [linear_search_by] at h
    cases hc : cmp t x with
    | eq => rw [hc] at h; cases h
    | lt => rw [hc] at h; cases h; simp
    | gt =>
      rw [hc] at h
      cases hr : linear_search_by xs t cmp with
      | ok j => rw [hr] at h; cases h
      | err j =>
        rw [hr] at h
        cases h
        simpa using Nat.succ_le_succ (ih hr)

theorem linear_search_by_err_take {arr : List T1} {t : T2} {cmp : T2 → T1 → Ordering} :
    ∀ {i : Nat}, linear_search_by arr t cmp = .err i →
      ∀ y ∈ arr.take i, cmp t y = .gt := by
  induction arr with
  | nil => intro i _ y hy; simp at hy
  | cons x xs ih =>
    intro i h y hy
    simp only [linear_search_by] at h
    cases hc : cmp t x with
    | eq => rw [hc] at h; cases h
    | lt => rw [hc] at h; cases h; simp at hy
    | gt =>
      rw [hc] at h
      cases hr : linear_search_by xs t cmp with
      | ok j => rw [hr] at h; cases h
      | err j =>
        rw [hr] at h
        cases h
        rcases (by simpa using hy : y = x ∨ y ∈ xs.take j) with rfl | hy'
        · exact hc
        · exact ih hr y hy'

theorem linear_search_by_err_head {arr : List T1} {t : T2} {cmp : T2 → T1 → Ordering} :
    ∀ {i : Nat}, linear_search_by arr t cmp = .err i →
      ∀ y, (arr.drop i).head? = some y → cmp t y = .lt := by
  induction arr with
  | nil => intro i h y hy; simp only [linear_search_by] at h; cases h; simp at hy
  | cons x xs ih =>
    intro i h y hy
    simp only [linear_search_by] at h
    cases hc : cmp t x with
    | eq => rw [hc] at h; cases h
    | lt =>
      rw [hc] at h
      cases h
      simp only [List.drop_zero, List.head?_cons, Option.some.injEq] at hy
      subst hy
      exact hc
    | gt =>
      rw [hc] at h
      cases hr : linear_search_by xs t cmp with
      | ok j => rw [hr] at h; cases h
      | err j =>
        rw [hr] at h
        cases h
        exact ih hr y (by simpa using hy)

theorem linear_search_by_take_ok {arr : List T1} {t : T2} {cmp : T2 → T1 → Ordering} :
    ∀ {i : Nat}, linear_search_by arr t cmp = .ok i →
      ∀ y ∈ arr.take i, cmp t y = .gt := by
  induction arr with
  | nil => intro i h; simp [linear_search_by] at h
  | cons x xs ih =>
    intro i h y hy
    simp only [linear_search_by] at h
    cases hc : cmp t x with
    | eq => rw [hc] at h; cases h; simp at hy
    | lt => rw [hc] at h; cases h
    | gt =>
      rw [hc] at h
      cases hr : linear_search_by xs t cmp with
      | ok j =>
        rw [hr] at h
        cases h
        rcases (by simpa using hy : y = x ∨ y ∈ xs.take j) with rfl | hy'
        · exact hc
        · exact ih hr y hy'
      | err j => rw [hr] at h; cases h

theorem pairwise_drop_all {R : α → α → Prop}
    (htr : ∀ a b c : α, R a b → R b c → R a c) {l : List α}
    (hp : l.Pairwise R) {i : Nat} {a : α}
    (hhead : ∀ y, (l.drop i).head? = some y → R a y) :
    ∀ x ∈ l.drop i, R a x := by
  have hd : (l.drop i).Pairwise R := hp.sublist (List.drop_sublist i l)
  cases hdrop : l.drop i with
  | nil => simp
  | cons y0 rest =>
    rw [hdrop] at hd
    intro x hx
    have hy0 : R a y0 := hhead y0 (by rw [hdrop]; rfl)
    rcases (by simpa using hx : x = y0 ∨ x ∈ rest) with rfl | hx'
    · exact hy0
    · exact htr a y0 x hy0 ((List.pairwise_cons.1 hd).1 x hx')

/-! ### Search correctness over a sorted `XFixMatchDict` store -/

/-- The comparator used by `XFixMatchDict::search`. -/
theorem xfix_search_err_not_mem {l : List Str} {t : Str} {i : Nat}
    (hs : AscStr l)
    (he : linear_search_by l t (fun a b => cmpStr a b) = .err i) : t ∉ l := by
  intro hm
  rw [← List.take_append_drop i l] at hm
  rcases List.mem_append.1 hm with hm | hm
  · have := linear_search_by_err_take he t hm
    exact absurd rfl (cmpStr_ne_of_lt (cmpStr_gt_iff_lt.1 this))
  · have hall : ∀ x ∈ l.drop i, cmpStr t x = .lt := by
      refine pairwise_drop_all (R := fun x y => cmpStr x y = .lt)
        (fun _ _ _ hab hbc => cmpStr_lt_trans hab hbc) hs ?_
      exact fun y hy => linear_search_by_err_head he y hy
    exact absurd rfl (cmpStr_ne_of_lt (hall t hm))

theorem xfix_search_err_sorted_insert {l : List Str} {t : Str} {i : Nat}
    (hs : AscStr l)
    (he : linear_search_by l t (fun a b => cmpStr a b) = .err i) :
    AscStr (insert_at i t l) := by
  refine pairwise_insert_at hs ?_ ?_
  · exact fun x hx => cmpStr_gt_iff_lt.1 (linear_search_by_err_take he x hx)
  · refine pairwise_drop_all (R := fun x y => cmpStr x y = .lt)
      (fun _ _ _ hab hbc => cmpStr_lt_trans hab hbc) hs ?_
    exact fun y hy => linear_search_by_err_head he y hy

theorem xfix_search_ok_get {l : List Str} {t : Str} {i : Nat}
    (ho : linear_search_by l t (fun a b => cmpStr a b) = .ok i) :
    l[i]? = some t := by
  rcases linear_search_by_ok ho with ⟨x, hx, hc⟩
  rw [cmpStr_eq_iff] at hc
  rw [hx, hc]

theorem xfix_search_isOk_of_mem {l : List Str} {t : Str}
    (hs : AscStr l) (hm : t ∈ l) :
    ∃ i, linear_search_by l t (fun a b => cmpStr a b) = .ok i := by
  cases hr : linear_search_by l t (fun a b => cmpStr a b) with
  | ok i => exact ⟨i, rfl⟩
  | err i => exact absurd hm (xfix_search_err_not_mem hs hr)

/-! ### `XFixMatchDict` invariants -/

theorem xfix_insert_sorted {d : XFixMatchDict} {x : Str}
    (h : AscStr d.x_fixes) : AscStr (d.insert x).x_fixes := by
  unfold XFixMatchDict.insert
  cases hr : d.search x with
  | ok i => exact h
  | err i => exact xfix_search_err_sorted_insert h hr

theorem xfix_mem_insert {d : XFixMatchDict} {x y : Str} :
    y ∈ (d.insert x).x_fixes ↔ y = x ∨ y ∈ d.x_fixes := by
  unfold XFixMatchDict.insert
  cases hr : d.search x with
  | ok i =>
    have hx : x ∈ d.x_fixes := List.getElem?_mem (xfix_search_ok_get hr)
    constructor
    · exact fun h => Or.inr h
    · rintro (rfl | h) <;> [exact hx; exact h]
  | err i => exact mem_insert_at

theorem buildDict_sorted (l : List Str) : AscStr (buildDict l).x_fixes := by
  suffices h : ∀ (d : XFixMatchDict), AscStr d.x_fixes →
      AscStr (l.foldl XFixMatchDict.insert d).x_fixes by
    exact h ⟨[]⟩ (List.Pairwise.nil)
  induction l with
  | nil => exact fun d hd => hd
  | cons x xs ih =>
    intro d hd
    exact ih (d.insert x) (xfix_insert_sorted hd)

theorem mem_buildDict {l : List Str} {a : Str} :
    a ∈ (buildDict l).x_fixes ↔ a ∈ l := by
  suffices h : ∀ (d : XFixMatchDict),
      (a ∈ (l.foldl XFixMatchDict.insert d).x_fixes ↔ a ∈ l ∨ a ∈ d.x_fixes) by
    simpa using h ⟨[]⟩
  induction l with
  | nil => intro d; simp
  | cons x xs ih =>
    intro d
    rw [List.foldl_cons, ih (d.insert x), xfix_mem_insert]
    simp only [List.mem_cons]
    tauto

/-! ### First-match over a descending store = longest match -/

theorem cmpStr_lt_asymm {a b : Str} (h1 : cmpStr a b = .lt)
    (h2 : cmpStr b a = .lt) : False := by
  have := cmpStr_lt_trans h1 h2
  rw [cmpStr_refl a] at this
  exact absurd this (by simp)

/-- In a strictly descending store, `find?` stops at the entry with the
greatest key among those satisfying the predicate. -/
theorem find?_desc_first {key : α → Str} {pred : α → Bool} :
    ∀ {l : List α} {t : α}, DescBy key l → l.find? pred = some t →
      ∀ u ∈ l, pred u = true → u = t ∨ cmpStr (key u) (key t) = .lt := by
  intro l
  induction l with
  | nil => intro t _ hf; simp at hf
  | cons x xs ih =>
    intro t hs hf u hu hpu
    rcases List.pairwise_cons.1 hs with ⟨hx, hxs⟩
    by_cases hpx : pred x = true
    · rw [List.find?_cons_of_pos _ hpx] at hf
      obtain rfl : x = t := by injection hf
      rcases (by simpa using hu : u = x ∨ u ∈ xs) with rfl | hu'
      · exact Or.inl rfl
      · exact Or.inr (hx u hu')
    · rw [List.find?_cons_of_neg _ (by simpa using hpx)] at hf
      rcases (by simpa using hu : u = x ∨ u ∈ xs) with rfl | hu'
      · exact absurd hpu hpx
      · exact ih hxs hf u hu' hpu

/-- Conversely: an entry satisfying the predicate whose key dominates
every other satisfying entry is the one `find?` returns. -/
theorem find?_desc_eq_some {key : α → Str} {pred : α → Bool} :
    ∀ {l : List α} {t : α}, DescBy key l → t ∈ l → pred t = true →
      (∀ u ∈ l, pred u = true → u = t ∨ cmpStr (key u) (key t) = .lt) →
      l.find? pred = some t := by
  intro l
  induction l with
  | nil => intro t _ hmem; simp at hmem
  | cons x xs ih =>
    intro t hs hmem hpt hmax
    rcases List.pairwise_cons.1 hs with ⟨hx, hxs⟩
    by_cases hpx : pred x = true
    · rw [List.find?_cons_of_pos _ hpx]
      rcases hmax x (by simp) hpx with rfl | hlt
      · rfl
      · rcases (by simpa using hmem : t = x ∨ t ∈ xs) with rfl | hmem'
        · rfl
        · exact absurd (hx t hmem') (fun h => cmpStr_lt_asymm h hlt)
    · rw [List.find?_cons_of_neg _ (by simpa using hpx)]
      rcases (by simpa using hmem : t = x ∨ t ∈ xs) with rfl | hmem'
      · exact absurd hpt hpx
      · exact ih hxs hmem' hpt (fun u hu hpu => hmax u (by simp [hu]) hpu)

/-- An ascending store iterated in reverse is descending. -/
theorem descBy_id_reverse {l : List Str} (h : AscStr l) :
    DescBy (fun s => s) l.reverse :=
  List.pairwise_reverse.2 h

/-- C1, general part, forward: what `match_prefix` returns on a
dictionary built by `insert` calls is a registered affix that is a
p-refix of the candidate of maximal length. -/
theorem matchPrefix_buildDict_some_iff {l : List Str} {c a : Str} :
    (buildDict l).matchPrefix c = some a ↔
      a ∈ l ∧ a <+: c ∧ ∀ b ∈ l, b <+: c → b.length ≤ a.length := by
  have hdesc : DescBy (fun s => s) (buildDict l).x_fixes.reverse :=
    descBy_id_reverse (buildDict_sorted l)
  rw [XFixMatchDict.matchPrefix, XFixMatchDict.iter_x_fixes]
  constructor
  · intro hf
    have hmem : a ∈ l := mem_buildDict.1 (by
      simpa using List.mem_of_find?_eq_some hf)
    have hpre : a <+: c := List.isPrefixOf_iff_prefix.1 (by simpa using List.find?_some hf)
    refine ⟨hmem, hpre, ?_⟩
    intro b hb hbc
    have hb' : b ∈ (buildDict l).x_fixes.reverse := by
      simpa using mem_buildDict.2 hb
    rcases find?_desc_first hdesc hf b hb' (List.isPrefixOf_iff_prefix.2 hbc)
      with rfl | hlt
    · exact le_rfl
    · exact (prefix_of_prefix_of_lt hbc hpre hlt).length_le
  · rintro ⟨hmem, hpre, hmax⟩
    refine find?_desc_eq_some hdesc (by simpa using mem_buildDict.2 hmem)
      (List.isPrefixOf_iff_prefix.2 hpre) ?_
    intro u hu hpu
    have hu' : u ∈ l := mem_buildDict.1 (by simpa using hu)
    have hupre : u <+: c := List.isPrefixOf_iff_prefix.1 hpu
    have hle : u.length ≤ a.length := hmax u hu' hupre
    rcases List.prefix_or_prefix_of_prefix hupre hpre with h | h
    · rcases eq_or_ne u a with rfl | hne
      · exact Or.inl rfl
      · exact Or.inr (cmpStr_lt_of_proper_pfx h hne)
    · exact Or.inl ((h.eq_of_length (le_antisymm h.length_le hle)).symm)

theorem matchPrefix_buildDict_none_iff {l : List Str} {c : Str} :
    (buildDict l).matchPrefix c = none ↔ ∀ b ∈ l, ¬ b <+: c := by
  rw [XFixMatchDict.matchPrefix, XFixMatchDict.iter_x_fixes, List.find?_eq_none]
  constructor
  · intro h b hb hbc
    exact h b (by simpa using mem_buildDict.2 hb)
      (by simpa using List.isPrefixOf_iff_prefix.2 hbc)
  · intro h b hb hbc
    exact h b (mem_buildDict.1 (by simpa using hb))
      (List.isPrefixOf_iff_prefix.1 (by simpa using hbc))

/-! ### Auxiliary facts used by the construction claims -/

theorem linear_search_all_gt {arr : List T1} {t : T2} {cmp : T2 → T1 → Ordering}
    (h : ∀ y ∈ arr, cmp t y = .gt) :
    linear_search_by arr t cmp = .err arr.length := by
  induction arr with
  | nil => rfl
  | cons x xs ih =>
    simp only [linear_search_by, h x (by simp),
      ih (fun y hy => h y (by simp [hy])), List.length_cons]

theorem insert_at_length_append (l : List α) (a : α) :
    insert_at l.length a l = l ++ [a] := by
  induction l with
  | nil => rfl
  | cons x xs ih => simp [insert_at, ih]

/-- Inserting into a dictionary whose store precedes the element
appends it at the end. -/
theorem foldl_insert_sorted_append : ∀ {l : List Str} {d : XFixMatchDict},
    AscStr (d.x_fixes ++ l) →
    l.foldl XFixMatchDict.insert d = ⟨d.x_fixes ++ l⟩ := by
  intro l
  induction l with
  | nil => intro d _; simp
  | cons x xs ih =>
    intro d hs
    have hgt : ∀ y ∈ d.x_fixes, cmpStr x y = .gt := by
      intro y hy
      exact cmpStr_gt_iff_lt.2
        ((List.pairwise_append.1 hs).2.2 y hy x (by simp))
    have hins : d.insert x = ⟨d.x_fixes ++ [x]⟩ := by
      unfold XFixMatchDict.insert XFixMatchDict.search
      rw [linear_search_all_gt hgt]
      simp only []
      rw [insert_at_length_append]
    rw [List.foldl_cons, hins,
      ih (by simpa [List.append_assoc] using hs)]
    simp

/-! ### Claim theorems C1, C5, C6 -/

/-- C1: on a dictionary built by `insert` calls, `match_prefix` returns
exactly the registered affix that is the longest literal p-refix of the
candidate, `no match` iff no registered affix is a p-refix; with
`{"&", "&&"}` registered, `match_prefix("&&x")` is `"&&"`; a registered
empty affix is a universal fallback tried last: with `{"", "$", "#"}`,
`match_prefix("word")` is `""` and `match_prefix("$x")` is `"$"`. -/
theorem c1_match_longest_registered_affix :
    (∀ (l : List Str) (c a : Str),
       ((buildDict l).matchPrefix c = some a ↔
         a ∈ l ∧ a <+: c ∧ ∀ b ∈ l, b <+: c → b.length ≤ a.length)
       ∧ ((buildDict l).matchPrefix c = none ↔ ∀ b ∈ l, ¬ b <+: c))
    ∧ (buildDict [['&'], ['&', '&']]).matchPrefix ['&', '&', 'x'] = some ['&', '&']
    ∧ (buildDict [[], ['$'], ['#']]).matchPrefix ['w', 'o', 'r', 'd'] = some []
    ∧ (buildDict [[], ['$'], ['#']]).matchPrefix ['$', 'x'] = some ['$'] :=
  ⟨fun _ _ _ => ⟨matchPrefix_buildDict_some_iff, matchPrefix_buildDict_none_iff⟩,
    by decide, by decide, by decide⟩

/-- C5: on a sorted duplicate-free store, `search` has lower-bound
semantics: `Ok` carries the exact index of a present affix, `Err` an
index at which inserting the absent affix keeps the store sorted. -/
theorem c5_search_lower_bound (d : XFixMatchDict) (h : AscStr d.x_fixes)
    (a : Str) :
    (∀ i, d.search a = .ok i → d.x_fixes[i]? = some a)
    ∧ (a ∈ d.x_fixes → ∃ i, d.search a = .ok i)
    ∧ (∀ i, d.search a = .err i →
        a ∉ d.x_fixes ∧ i ≤ d.x_fixes.length ∧
          AscStr (insert_at i a d.x_fixes)) := by
  refine ⟨?_, ?_, ?_⟩
  · intro i hi
    exact xfix_search_ok_get hi
  · intro hm
    exact xfix_search_isOk_of_mem h hm
  · intro i hi
    exact ⟨xfix_search_err_not_mem h hi, linear_search_by_err_le hi,
      xfix_search_err_sorted_insert h hi⟩

/-- Witness for C5 at the concrete store `["a", "c"]` and target `"b"`. -/
theorem c5_search_lower_bound_witness :
    AscStr [['a'], ['c']] ∧
    ((∀ i, (XFixMatchDict.mk [['a'], ['c']]).search ['b'] = .ok i →
        ([['a'], ['c']] : List Str)[i]? = some ['b'])
     ∧ (['b'] ∈ ([['a'], ['c']] : List Str) →
        ∃ i, (XFixMatchDict.mk [['a'], ['c']]).search ['b'] = .ok i)
     ∧ (∀ i, (XFixMatchDict.mk [['a'], ['c']]).search ['b'] = .err i →
        ['b'] ∉ ([['a'], ['c']] : List Str) ∧ i ≤ 2 ∧
          AscStr (insert_at i ['b'] [['a'], ['c']]))) :=
  ⟨by decide, c5_search_lower_bound ⟨[['a'], ['c']]⟩ (by decide) ['b']⟩

/-- C6 counterexample: `XFixMatchDict::new` collects the iterable as-is,
so on the unsorted input `["b", "a"]` it differs from the dictionary
obtained by routing each element through `insert`. -/
theorem c6_new_differs_from_insert_fold :
    XFixMatchDict.new [['b'], ['a']] ≠ buildDict [['b'], ['a']] ∧
    (XFixMatchDict.new [['b'], ['a']]).x_fixes = [['b'], ['a']] ∧
    (buildDict [['b'], ['a']]).x_fixes = [['a'], ['b']] := by
  refine ⟨?_, by decide, by decide⟩
  decide

/-- C6 amended: `new` stores the given elements in input order; it
coincides with the `insert`-fold exactly on inputs that are already
ascending-sorted and duplicate-free. -/
theorem c6_new_eq_insert_fold_of_sorted (l : List Str) (h : AscStr l) :
    XFixMatchDict.new l = buildDict l := by
  rw [XFixMatchDict.new, buildDict, foldl_insert_sorted_append (by simpa using h)]
  simp

/-- Witness for C6 (amended) at the sorted input `["a", "b"]`. -/
theorem c6_new_eq_insert_fold_witness :
    AscStr [['a'], ['b']] ∧
    XFixMatchDict.new [['a'], ['b']] = buildDict [['a'], ['b']] :=
  ⟨by decide, c6_new_eq_insert_fold_of_sorted [['a'], ['b']] (by decide)⟩

/-! ### Search correctness over a descending keyed store -/

theorem pairwise_drop_all_prop {R : α → α → Prop} {P : α → Prop}
    (hmono : ∀ a b : α, P a → R a b → P b) {l : List α}
    (hp : l.Pairwise R) {i : Nat}
    (hhead : ∀ y, (l.drop i).head? = some y → P y) :
    ∀ x ∈ l.drop i, P x := by
  have hd : (l.drop i).Pairwise R := hp.sublist (List.drop_sublist i l)
  cases hdrop : l.drop i with
  | nil => simp
  | cons y0 rest =>
    rw [hdrop] at hd
    intro x hx
    have hy0 : P y0 := hhead y0 (by rw [hdrop]; rfl)
    rcases (by simpa using hx : x = y0 ∨ x ∈ rest) with rfl | hx'
    · exact hy0
    · exact hmono y0 x hy0 ((List.pairwise_cons.1 hd).1 x hx')

theorem key_search_drop_lt {key : α → Str} {l : List α} {p : Str} {i : Nat}
    (hs : DescBy key l)
    (he : linear_search_by l p (fun t e => cmpStr (key e) t) = .err i) :
    ∀ x ∈ l.drop i, cmpStr (key x) p = .lt := by
  refine pairwise_drop_all_prop (P := fun x => cmpStr (key x) p = .lt)
    (fun a b ha hab => cmpStr_lt_trans hab ha) hs ?_
  exact fun y hy => linear_search_by_err_head he y hy

theorem key_search_err_not_mem {key : α → Str} {l : List α} {p : Str} {i : Nat}
    (hs : DescBy key l)
    (he : linear_search_by l p (fun t e => cmpStr (key e) t) = .err i) :
    ∀ x ∈ l, key x ≠ p := by
  intro x hx
  rw [← List.take_append_drop i l] at hx
  rcases List.mem_append.1 hx with hx | hx
  · have := linear_search_by_err_take he x hx
    exact fun hk => absurd (by rw [hk] at this; exact this)
      (by rw [cmpStr_gt_iff_lt, cmpStr_eq_iff.2 rfl]; simp)
  · have := key_search_drop_lt hs he x hx
    exact cmpStr_ne_of_lt this

theorem key_search_err_sorted_insert {key : α → Str} {l : List α} {p : Str}
    {i : Nat} {t : α} (hs : DescBy key l)
    (he : linear_search_by l p (fun t' e => cmpStr (key e) t') = .err i)
    (ht : key t = p) : DescBy key (insert_at i t l) := by
  refine pairwise_insert_at hs ?_ ?_
  · intro x hx
    rw [ht]
    exact cmpStr_gt_iff_lt.1 (linear_search_by_err_take he x hx)
  · intro x hx
    rw [ht]
    exact key_search_drop_lt hs he x hx

theorem key_search_ok_get {key : α → Str} {l : List α} {p : Str} {i : Nat}
    (ho : linear_search_by l p (fun t e => cmpStr (key e) t) = .ok i) :
    ∃ x, l[i]? = some x ∧ key x = p := by
  rcases linear_search_by_ok ho with ⟨x, hx, hc⟩
  exact ⟨x, hx, cmpStr_eq_iff.1 hc⟩

theorem key_search_isOk_of_mem {key : α → Str} {l : List α} {p : Str}
    (hs : DescBy key l) (hm : ∃ x ∈ l, key x = p) :
    ∃ i, linear_search_by l p (fun t e => cmpStr (key e) t) = .ok i := by
  cases hr : linear_search_by l p (fun t e => cmpStr (key e) t) with
  | ok i => exact ⟨i, rfl⟩
  | err i =>
    rcases hm with ⟨x, hx, hk⟩
    exact absurd hk (key_search_err_not_mem hs hr x hx)

/-! ### `PrefixMatchDictPair` invariants -/

theorem pair_insert_sorted {d : PrefixMatchDictPair T}
    {term : Str × T} (h : DescBy Prod.fst d.prefixes) :
    DescBy Prod.fst ((d.insert term).1).prefixes := by
  unfold PrefixMatchDictPair.insert
  cases hr : d.search term.fst with
  | ok i => exact h
  | err i => exact key_search_err_sorted_insert h hr rfl

theorem pair_mem_insert {d : PrefixMatchDictPair T}
    {term x : Str × T} :
    x ∈ ((d.insert term).1).prefixes →
      x = term ∨ x ∈ d.prefixes := by
  unfold PrefixMatchDictPair.insert
  cases hr : d.search term.fst with
  | ok i => exact fun h => Or.inr h
  | err i => exact fun h => mem_insert_at.1 h

theorem buildPairDict_sorted (l : List (Str × T)) :
    DescBy Prod.fst (buildPairDict l).prefixes := by
  suffices h : ∀ (d : PrefixMatchDictPair T), DescBy Prod.fst d.prefixes →
      DescBy Prod.fst (l.foldl (fun d term => (d.insert term).1) d).prefixes by
    exact h ⟨[]⟩ List.Pairwise.nil
  induction l with
  | nil => exact fun d hd => hd
  | cons x xs ih =>
    intro d hd
    exact ih ((d.insert x).1) (pair_insert_sorted hd)

/-! ### Claim theorems C4, C7 -/

/-- C4: any sequence of `insert` calls from the empty dictionary leaves
the backing store sorted (ascending for `XFixMatchDict`, descending by
affix for `PrefixMatchDictPair` — the orientation each search assumes)
and free of duplicate affixes.  Every observable point of such a
sequence is `buildDict`/`buildPairDict` of a p-refix of the insertion
sequence, so the universally quantified statement covers all of them. -/
theorem c4_store_sorted_and_duplicate_free :
    (∀ l : List Str, AscStr (buildDict l).x_fixes ∧
       (buildDict l).x_fixes.Pairwise (fun a b => a ≠ b))
    ∧ (∀ (T : Type) (l : List (Str × T)),
       DescBy Prod.fst (buildPairDict l).prefixes ∧
       (buildPairDict l).prefixes.Pairwise (fun a b => a.fst ≠ b.fst)) := by
  constructor
  · intro l
    refine ⟨buildDict_sorted l, ?_⟩
    exact (buildDict_sorted l).imp (fun h => cmpStr_ne_of_lt h)
  · intro T l
    refine ⟨buildPairDict_sorted l, ?_⟩
    exact (buildPairDict_sorted l).imp (fun h => (cmpStr_ne_of_lt h).symm)

/-- C7 (partial, the part the code satisfies): inserting an entry whose
affix is already present is a no-op that leaves the dictionary
unchanged, for both the plain and the paired dictionary; the paired
variant reports the duplicate as `None` ("already present").  (The
plain `XFixMatchDict::insert` returns `()`, so *it* reports nothing —
see the claim record.) -/
theorem c7_duplicate_insert_noop :
    (∀ (d : XFixMatchDict) (x : Str), d.has x = true → d.insert x = d)
    ∧ (∀ (T : Type) (d : PrefixMatchDictPair T) (term : Str × T),
        d.has term.fst = true → d.insert term = (d, none)) := by
  constructor
  · intro d x h
    unfold XFixMatchDict.has at h
    unfold XFixMatchDict.insert
    cases hr : d.search x with
    | ok i => rfl
    | err i => rw [hr] at h; exact absurd h (by simp)
  · intro T d term h
    unfold PrefixMatchDictPair.has at h
    unfold PrefixMatchDictPair.insert
    cases hr : d.search term.fst with
    | ok i => rfl
    | err i => rw [hr] at h; exact absurd h (by simp)

/-- Witness for C7 at concrete duplicate inserts. -/
theorem c7_duplicate_insert_noop_witness :
    ((buildDict [['a']]).has ['a'] = true ∧
      (buildDict [['a']]).insert ['a'] = buildDict [['a']])
    ∧ ((buildPairDict [(['a'], ['b'])]).has ['a'] = true ∧
      (buildPairDict [(['a'], ['b'])]).insert (['a'], ['c']) =
        (buildPairDict [(['a'], ['b'])], none)) :=
  ⟨⟨by decide, c7_duplicate_insert_noop.1 (buildDict [['a']]) ['a'] (by decide)⟩,
    ⟨by decide, c7_duplicate_insert_noop.2 Str (buildPairDict [(['a'], ['b'])])
      (['a'], ['c']) (by decide)⟩⟩

/-! ### The bidirectional-dictionary invariant -/

theorem linear_search_by_map {l : List A} {f : A → B} {t : T2}
    {g : T2 → B → Ordering} :
    linear_search_by (l.map f) t g = linear_search_by l t (fun t' a => g t' (f a)) := by
  induction l with
  | nil => rfl
  | cons x xs ih =>
    simp only [List.map_cons, linear_search_by, ih]

theorem shiftIdx_injective (i_term : Nat) :
    Function.Injective (shiftIdx i_term) := by
  intro a b hab
  unfold shiftIdx at hab
  by_cases ha : i_term ≤ a <;> by_cases hb : i_term ≤ b <;> simp [ha, hb] at hab
  · exact hab
  · omega
  · omega
  · exact hab

theorem shiftIdx_ne (i_term j : Nat) : shiftIdx i_term j ≠ i_term := by
  unfold shiftIdx
  by_cases h : i_term ≤ j <;> simp [h] <;> omega

theorem BiInv.empty : BiInv ⟨⟨[]⟩, []⟩ := by
  refine ⟨List.Pairwise.nil, ?_, List.Pairwise.nil, ?_, List.Pairwise.nil⟩
  · intro r hr; simp at hr
  · intro j hj; simp at hj

theorem getTermD_mem {d : BiFixMatchDictPair} (h : BiInv d) {r : Nat}
    (hr : r ∈ d.suffix_ordered_refs) :
    d.getTermD r ∈ d.prefix_dict.prefixes := by
  have hlt := h.refs_lt r hr
  rw [BiFixMatchDictPair.getTermD, List.getD_eq_getElem _ _ hlt]
  exact List.getElem_mem hlt

theorem suffix_terms_subset {d : BiFixMatchDictPair} (h : BiInv d) :
    ∀ x ∈ d.suffix_terms, x ∈ d.prefix_dict.prefixes := by
  intro x hx
  rcases List.mem_map.1 hx with ⟨r, hr, rfl⟩
  exact getTermD_mem h hr

theorem mem_suffix_terms {d : BiFixMatchDictPair} (h : BiInv d) {x : Str × Str}
    (hx : x ∈ d.prefix_dict.prefixes) : x ∈ d.suffix_terms := by
  rcases List.getElem?_of_mem hx with ⟨j, hj⟩
  have hjlt : j < d.prefix_dict.prefixes.length :=
    (List.getElem?_eq_some_iff.1 hj).1
  have hjr : j ∈ d.suffix_ordered_refs := h.refs_cover j hjlt
  have hterm : d.getTermD j = x := by
    rw [BiFixMatchDictPair.getTermD, List.getD_eq_getElem?_getD, hj]
    rfl
  exact List.mem_map.2 ⟨j, hjr, hterm⟩

/-! Equation lemmas for `BiFixMatchDictPair::insert`, one per branch. -/

theorem bi_insert_eq_inserted {d : BiFixMatchDictPair} {term : Str × Str}
    {i_insert i_term : Nat}
    (hsuf : d.searchSuffix term.snd = .err i_insert)
    (hps : d.prefix_dict.search term.fst = .err i_term) :
    d.insert term =
      (⟨⟨insert_at i_term term d.prefix_dict.prefixes⟩,
        insert_at i_insert i_term
          (d.suffix_ordered_refs.map (shiftIdx i_term))⟩, true) := by
  unfold BiFixMatchDictPair.insert PrefixMatchDictPair.insert
  rw [hsuf, hps]
  rfl

theorem bi_insert_eq_dup_suffix {d : BiFixMatchDictPair} {term : Str × Str}
    {i : Nat} (hsuf : d.searchSuffix term.snd = .ok i) :
    d.insert term = (d, false) := by
  unfold BiFixMatchDictPair.insert
  rw [hsuf]

theorem bi_insert_eq_dup_pfx {d : BiFixMatchDictPair} {term : Str × Str}
    {i_insert j : Nat} (hsuf : d.searchSuffix term.snd = .err i_insert)
    (hps : d.prefix_dict.search term.fst = .ok j) :
    d.insert term = (d, false) := by
  unfold BiFixMatchDictPair.insert PrefixMatchDictPair.insert
  rw [hsuf, hps]

theorem getD_shift {P : List (Str × Str)} {t : Str × Str} {i_term : Nat}
    (hle : i_term ≤ P.length) (r : Nat) :
    (insert_at i_term t P).getD (shiftIdx i_term r) ([], []) = P.getD r ([], []) := by
  unfold shiftIdx
  by_cases hc : i_term ≤ r
  · rw [if_pos hc]
    exact getD_insert_at_of_ge hc
  · rw [if_neg hc]
    exact getD_insert_at_of_lt (lt_of_not_le hc) hle

/-- The shape of the new secondary view after a successful insert: the
shifted references still denote the old entries, and the new reference
denotes the new entry, so the referenced-entry sequence is the old one
with the new entry at the suffix lower-bound position. -/
theorem bi_insert_suffix_terms {d : BiFixMatchDictPair} {term : Str × Str}
    {i_insert i_term : Nat}
    (hn : i_term ≤ d.prefix_dict.prefixes.length) :
    (BiFixMatchDictPair.mk ⟨insert_at i_term term d.prefix_dict.prefixes⟩
      (insert_at i_insert i_term
        (d.suffix_ordered_refs.map (shiftIdx i_term)))).suffix_terms =
    insert_at i_insert term d.suffix_terms := by
  unfold BiFixMatchDictPair.suffix_terms BiFixMatchDictPair.getTermD
  simp only [map_insert_at, List.map_map]
  rw [getD_insert_at_self hn]
  congr 1
  exact List.map_congr_left (fun r _ => getD_shift hn r)

theorem searchSuffix_eq_search_terms {d : BiFixMatchDictPair} {s : Str} :
    linear_search_by d.suffix_terms s (fun t x => cmpStr x.snd t) =
      d.searchSuffix s := by
  unfold BiFixMatchDictPair.suffix_terms BiFixMatchDictPair.searchSuffix
  exact linear_search_by_map

theorem BiInv.insert_preserved {d : BiFixMatchDictPair} (h : BiInv d)
    (term : Str × Str) : BiInv ((d.insert term).1) := by
  cases hsuf : d.searchSuffix term.snd with
  | ok i => rw [bi_insert_eq_dup_suffix hsuf]; exact h
  | err i_insert =>
    cases hps : d.prefix_dict.search term.fst with
    | ok j => rw [bi_insert_eq_dup_pfx hsuf hps]; exact h
    | err i_term =>
      rw [bi_insert_eq_inserted hsuf hps]
      have hn : i_term ≤ d.prefix_dict.prefixes.length :=
        linear_search_by_err_le hps
      have hlen : (insert_at i_term term d.prefix_dict.prefixes).length =
          d.prefix_dict.prefixes.length + 1 := length_insert_at hn
      refine ⟨?_, ?_, ?_, ?_, ?_⟩
      · exact key_search_err_sorted_insert h.pd_sorted hps rfl
      · -- bounds
        intro r hr
        simp only [hlen]
        rcases mem_insert_at.1 hr with rfl | hr'
        · omega
        · rcases List.mem_map.1 hr' with ⟨r0, hr0, rfl⟩
          have := h.refs_lt r0 hr0
          unfold shiftIdx
          by_cases hc : i_term ≤ r0 <;> simp [hc] <;> omega
      · -- distinctness
        refine nodup_insert_at (List.Nodup.map (shiftIdx_injective i_term)
          h.refs_nodup) ?_
        intro hmem
        rcases List.mem_map.1 hmem with ⟨r0, _, habs⟩
        exact shiftIdx_ne i_term r0 habs
      · -- coverage
        intro j hj
        simp only [hlen] at hj
        rcases lt_trichotomy j i_term with hc | rfl | hc
        · refine mem_insert_at.2 (Or.inr (List.mem_map.2 ⟨j, ?_, ?_⟩))
          · exact h.refs_cover j (by omega)
          · unfold shiftIdx
            rw [if_neg (by omega)]
        · exact mem_insert_at.2 (Or.inl rfl)
        · refine mem_insert_at.2 (Or.inr (List.mem_map.2 ⟨j - 1, ?_, ?_⟩))
          · exact h.refs_cover (j - 1) (by omega)
          · unfold shiftIdx
            rw [if_pos (by omega)]
            omega
      · -- suffix order
        rw [bi_insert_suffix_terms hn]
        refine key_search_err_sorted_insert h.sfx_sorted ?_ rfl
        rw [searchSuffix_eq_search_terms]
        exact hsuf

/-! ### Membership facts for bidirectional insertion -/

theorem bi_insert_subset {d : BiFixMatchDictPair} {t x : Str × Str}
    (hx : x ∈ ((d.insert t).1).prefix_dict.prefixes) :
    x = t ∨ x ∈ d.prefix_dict.prefixes := by
  cases hsuf : d.searchSuffix t.snd with
  | ok i => rw [bi_insert_eq_dup_suffix hsuf] at hx; exact Or.inr hx
  | err i_insert =>
    cases hps : d.prefix_dict.search t.fst with
    | ok j => rw [bi_insert_eq_dup_pfx hsuf hps] at hx; exact Or.inr hx
    | err i_term =>
      rw [bi_insert_eq_inserted hsuf hps] at hx
      exact mem_insert_at.1 hx

theorem bi_insert_mono {d : BiFixMatchDictPair} {t x : Str × Str}
    (hx : x ∈ d.prefix_dict.prefixes) :
    x ∈ ((d.insert t).1).prefix_dict.prefixes := by
  cases hsuf : d.searchSuffix t.snd with
  | ok i => rw [bi_insert_eq_dup_suffix hsuf]; exact hx
  | err i_insert =>
    cases hps : d.prefix_dict.search t.fst with
    | ok j => rw [bi_insert_eq_dup_pfx hsuf hps]; exact hx
    | err i_term =>
      rw [bi_insert_eq_inserted hsuf hps]
      exact mem_insert_at.2 (Or.inr hx)

/-- An entry whose p-refix and suffix are both fresh is really inserted. -/
theorem bi_insert_fresh {d : BiFixMatchDictPair} {t : Str × Str} (h : BiInv d)
    (hp : ∀ x ∈ d.prefix_dict.prefixes, x.fst ≠ t.fst)
    (hs : ∀ x ∈ d.prefix_dict.prefixes, x.snd ≠ t.snd) :
    t ∈ ((d.insert t).1).prefix_dict.prefixes := by
  cases hsuf : d.searchSuffix t.snd with
  | ok i =>
    exfalso
    rcases key_search_ok_get hsuf with ⟨r, hr, hk⟩
    exact hs (d.getTermD r) (getTermD_mem h (List.getElem?_mem hr)) hk
  | err i_insert =>
    cases hps : d.prefix_dict.search t.fst with
    | ok j =>
      exfalso
      rcases key_search_ok_get hps with ⟨x, hx, hk⟩
      exact hp x (List.getElem?_mem hx) hk
    | err i_term =>
      rw [bi_insert_eq_inserted hsuf hps]
      exact mem_insert_at.2 (Or.inl rfl)

/-! ### Folding bidirectional inserts -/

theorem foldBi_inv : ∀ {l : List (Str × Str)} {d : BiFixMatchDictPair},
    BiInv d → BiInv (l.foldl (fun d t => (BiFixMatchDictPair.insert d t).1) d) := by
  intro l
  induction l with
  | nil => exact fun h => h
  | cons a xs ih => exact fun h => ih (h.insert_preserved a)

theorem foldBi_mono : ∀ {l : List (Str × Str)} {d : BiFixMatchDictPair}
    {x : Str × Str}, x ∈ d.prefix_dict.prefixes →
    x ∈ ((l.foldl (fun d t => (BiFixMatchDictPair.insert d t).1) d)).prefix_dict.prefixes := by
  intro l
  induction l with
  | nil => exact fun h => h
  | cons a xs ih => exact fun h => ih (bi_insert_mono h)

theorem foldBi_subset : ∀ {l : List (Str × Str)} {d : BiFixMatchDictPair}
    {x : Str × Str},
    x ∈ ((l.foldl (fun d t => (BiFixMatchDictPair.insert d t).1) d)).prefix_dict.prefixes →
    x ∈ l ∨ x ∈ d.prefix_dict.prefixes := by
  intro l
  induction l with
  | nil => exact fun h => Or.inr h
  | cons a xs ih =>
    intro d x hx
    rcases ih hx with h | h
    · exact Or.inl (by simp [h])
    · rcases bi_insert_subset h with rfl | h'
      · exact Or.inl (by simp)
      · exact Or.inr h'

theorem foldBi_mem_of_distinct :
    ∀ {l : List (Str × Str)} {d : BiFixMatchDictPair},
    BiInv d → l.Pairwise (fun a b => a.fst ≠ b.fst) →
    l.Pairwise (fun a b => a.snd ≠ b.snd) →
    (∀ u ∈ l, ∀ x ∈ d.prefix_dict.prefixes, x.fst ≠ u.fst ∧ x.snd ≠ u.snd) →
    ∀ u ∈ l,
      u ∈ ((l.foldl (fun d t => (BiFixMatchDictPair.insert d t).1) d)).prefix_dict.prefixes := by
  intro l
  induction l with
  | nil => intro d _ _ _ _ u hu; simp at hu
  | cons a xs ih =>
    intro d hinv hfst hsnd hdisj u hu
    rcases List.pairwise_cons.1 hfst with ⟨hfa, hfxs⟩
    rcases List.pairwise_cons.1 hsnd with ⟨hsa, hsxs⟩
    have hinv' : BiInv ((d.insert a).1) := hinv.insert_preserved a
    rw [List.foldl_cons]
    rcases (by simpa using hu : u = a ∨ u ∈ xs) with rfl | hu'
    · have : u ∈ ((d.insert u).1).prefix_dict.prefixes :=
        bi_insert_fresh hinv (fun x hx => (hdisj u (by simp) x hx).1)
          (fun x hx => (hdisj u (by simp) x hx).2)
      exact foldBi_mono this
    · refine ih hinv' hfxs hsxs ?_ u hu'
      intro t ht x hx
      rcases bi_insert_subset hx with rfl | hx'
      · exact ⟨hfa t ht, hsa t ht⟩
      · exact hdisj t (by simp [ht]) x hx'

theorem buildBiDict_inv (l : List (Str × Str)) : BiInv (buildBiDict l) :=
  foldBi_inv BiInv.empty

theorem buildBiDict_subset {l : List (Str × Str)} {x : Str × Str}
    (hx : x ∈ (buildBiDict l).prefix_dict.prefixes) : x ∈ l := by
  rcases foldBi_subset hx with h | h
  · exact h
  · simp at h

theorem buildBiDict_mem {l : List (Str × Str)}
    (hfst : l.Pairwise (fun a b => a.fst ≠ b.fst))
    (hsnd : l.Pairwise (fun a b => a.snd ≠ b.snd))
    {u : Str × Str} (hu : u ∈ l) :
    u ∈ (buildBiDict l).prefix_dict.prefixes := by
  refine foldBi_mem_of_distinct BiInv.empty hfst hsnd ?_ u hu
  intro t _ x hx
  simp at hx

/-! ### Matching against the bidirectional dictionary -/

theorem biMatchPrefix_eq_some {d : BiFixMatchDictPair} (h : BiInv d)
    {t : Str × Str} (ht : t ∈ d.prefix_dict.prefixes) {c : Str}
    (hpre : t.fst <+: c)
    (hmax : ∀ u ∈ d.prefix_dict.prefixes, u.fst <+: c →
      u = t ∨ cmpStr u.fst t.fst = .lt) :
    d.matchPrefix c = some t := by
  unfold BiFixMatchDictPair.matchPrefix PrefixMatchDictPair.matchPrefix
    PrefixMatchDictPair.iter_terms
  refine find?_desc_eq_some h.pd_sorted ht
    (List.isPrefixOf_iff_prefix.2 hpre) ?_
  exact fun u hu hpu => hmax u hu (List.isPrefixOf_iff_prefix.1 hpu)

theorem biMatchSuffix_eq_some {d : BiFixMatchDictPair} (h : BiInv d)
    {t : Str × Str} (ht : t ∈ d.prefix_dict.prefixes) {c : Str}
    (hsuf : t.snd <:+ c)
    (hmax : ∀ u ∈ d.prefix_dict.prefixes, u.snd <:+ c →
      u = t ∨ cmpStr u.snd t.snd = .lt) :
    d.matchSuffix c = some t := by
  unfold BiFixMatchDictPair.matchSuffix
  refine find?_desc_eq_some h.sfx_sorted (mem_suffix_terms h ht)
    (List.isSuffixOf_iff_suffix.2 hsuf) ?_
  exact fun u hu hpu =>
    hmax u (suffix_terms_subset h u hu) (List.isSuffixOf_iff_suffix.1 hpu)

/-! ### Claim theorems C3, C10 -/

/-- C3 counterexample: with `("a","b")` and `("aa","bb")` inserted, the
string `"aa"` starts with the registered p-refix `"a"`, yet
`match_prefix` returns the entry for `"aa"` (maximal munch), not the
suffix `"b"` that the claim demands for `("a","b")`. -/
theorem c3_longest_match_beats_entry :
    (['a'] : Str) <+: ['a', 'a']
    ∧ ((['a'] : Str), (['b'] : Str)) ∈
        [((['a'] : Str), (['b'] : Str)), (['a', 'a'], ['b', 'b'])]
    ∧ (buildBiDict [(['a'], ['b']), (['a', 'a'], ['b', 'b'])]).matchPrefix
        ['a', 'a'] = some (['a', 'a'], ['b', 'b'])
    ∧ (['b', 'b'] : Str) ≠ ['b'] := by
  refine ⟨⟨['a'], rfl⟩, by decide, by decide, by decide⟩

/-- C3 amended: for insertion sequences whose p-refixes are pairwise
distinct and whose suffixes are pairwise distinct (so every pair really
enters the dictionary), in any interleaving order: `match_prefix`
applied to `pfx` itself returns its entry `(pfx, sfx)` (on longer
candidates the longest registered p-refix wins instead), and
`match_suffix` applied to `sfx` returns `(pfx, sfx)` provided every
other registered suffix that is a suffix of `sfx` is lexicographically
smaller than `sfx` (descending lexicographic iteration tests suffixes in
that order, which for suffixes need not be longest-first). -/
theorem c3_bidirectional_match_amended (l : List (Str × Str))
    (hfst : l.Pairwise (fun a b => a.fst ≠ b.fst))
    (hsnd : l.Pairwise (fun a b => a.snd ≠ b.snd))
    (p s : Str) (hmem : (p, s) ∈ l)
    (hsufmax : ∀ u ∈ l, u.snd <:+ s → u.snd = s ∨ cmpStr u.snd s = .lt) :
    (buildBiDict l).matchPrefix p = some (p, s)
    ∧ (buildBiDict l).matchSuffix s = some (p, s) := by
  have hinv := buildBiDict_inv l
  have hmem' : (p, s) ∈ (buildBiDict l).prefix_dict.prefixes :=
    buildBiDict_mem hfst hsnd hmem
  constructor
  · refine biMatchPrefix_eq_some hinv hmem' (List.prefix_refl p) ?_
    intro u hu hupre
    rcases eq_or_ne u (p, s) with rfl | hne
    · exact Or.inl rfl
    · have hufst : u.fst ≠ p :=
        hfst.forall (fun _ _ h => h.symm) (buildBiDict_subset hu) hmem hne
      exact Or.inr (cmpStr_lt_of_proper_pfx hupre hufst)
  · refine biMatchSuffix_eq_some hinv hmem' (List.suffix_refl s) ?_
    intro u hu husuf
    rcases hsufmax u (buildBiDict_subset hu) husuf with he | hlt
    · left
      rcases eq_or_ne u (p, s) with rfl | hne
      · rfl
      · exact absurd he
          (hsnd.forall (fun _ _ h => h.symm) (buildBiDict_subset hu) hmem hne)
    · exact Or.inr hlt

/-- Witness for C3 (amended) on the bracket table from the repo's own
tests. -/
theorem c3_bidirectional_match_witness :
    ([((['('] : Str), ([')'] : Str)), (['['], [']'])] :
        List (Str × Str)).Pairwise (fun a b => a.fst ≠ b.fst)
    ∧ ([((['('] : Str), ([')'] : Str)), (['['], [']'])] :
        List (Str × Str)).Pairwise (fun a b => a.snd ≠ b.snd)
    ∧ ((['('] : Str), ([')'] : Str)) ∈
        ([((['('] : Str), ([')'] : Str)), (['['], [']'])] : List (Str × Str))
    ∧ (∀ u ∈ ([((['('] : Str), ([')'] : Str)), (['['], [']'])] :
          List (Str × Str)), u.snd <:+ [')'] →
        u.snd = [')'] ∨ cmpStr u.snd [')'] = .lt)
    ∧ ((buildBiDict [(['('], [')']), (['['], [']'])]).matchPrefix ['(']
          = some (['('], [')'])
       ∧ (buildBiDict [(['('], [')']), (['['], [']'])]).matchSuffix [')']
          = some (['('], [')'])) :=
  ⟨by decide, by decide, by decide, by decide,
    c3_bidirectional_match_amended [(['('], [')']), (['['], [']'])]
      (by decide) (by decide) ['('] [')'] (by decide) (by decide)⟩

/-- C10: `BiFixMatchDictPair::new` additionally inserts the empty pair
after the caller's entries; when no given pair has an empty p-refix or
suffix this insert succeeds, so the dictionary contains `("", "")` and
both match directions always find a match — unlike a dictionary built
from the same pairs by direct `insert` calls, which contains no empty
pair. -/
theorem c10_new_adds_universal_fallback (l : List (Str × Str))
    (h : ∀ t ∈ l, t.fst ≠ [] ∧ t.snd ≠ []) (c : Str) :
    (([], []) : Str × Str) ∈ (BiFixMatchDictPair.new l).prefix_dict.prefixes
    ∧ (BiFixMatchDictPair.new l).matchPrefix c ≠ none
    ∧ (BiFixMatchDictPair.new l).matchSuffix c ≠ none
    ∧ (([], []) : Str × Str) ∉ (buildBiDict l).prefix_dict.prefixes := by
  have hnew : BiFixMatchDictPair.new l = ((buildBiDict l).insert ([], [])).1 := rfl
  have hinv := buildBiDict_inv l
  have hmem : (([], []) : Str × Str) ∈
      (BiFixMatchDictPair.new l).prefix_dict.prefixes := by
    rw [hnew]
    exact bi_insert_fresh hinv
      (fun x hx => (h x (buildBiDict_subset hx)).1)
      (fun x hx => (h x (buildBiDict_subset hx)).2)
  have hinv' : BiInv (BiFixMatchDictPair.new l) := by
    rw [hnew]
    exact hinv.insert_preserved ([], [])
  refine ⟨hmem, ?_, ?_, ?_⟩
  · intro hnone
    unfold BiFixMatchDictPair.matchPrefix PrefixMatchDictPair.matchPrefix
      PrefixMatchDictPair.iter_terms at hnone
    have hp : List.isPrefixOf ([] : Str) c = true :=
      List.isPrefixOf_iff_prefix.2 (List.nil_prefix)
    exact absurd hp (by simpa using List.find?_eq_none.1 hnone ([], []) hmem)
  · intro hnone
    unfold BiFixMatchDictPair.matchSuffix at hnone
    have hp : List.isSuffixOf ([] : Str) c = true :=
      List.isSuffixOf_iff_suffix.2 (List.nil_suffix)
    exact absurd hp (by simpa using
      List.find?_eq_none.1 hnone ([], []) (mem_suffix_terms hinv' hmem))
  · intro hmem'
    exact absurd rfl (h ([], []) (buildBiDict_subset hmem')).1

/-- Witness for C10 at the single pair `("a", "b")` and candidate `"z"`. -/
theorem c10_new_adds_universal_fallback_witness :
    (∀ t ∈ ([((['a'] : Str), (['b'] : Str))] : List (Str × Str)),
      t.fst ≠ [] ∧ t.snd ≠ [])
    ∧ ((([], []) : Str × Str) ∈
        (BiFixMatchDictPair.new [(['a'], ['b'])]).prefix_dict.prefixes
      ∧ (BiFixMatchDictPair.new [(['a'], ['b'])]).matchPrefix ['z'] ≠ none
      ∧ (BiFixMatchDictPair.new [(['a'], ['b'])]).matchSuffix ['z'] ≠ none
      ∧ (([], []) : Str × Str) ∉
        (buildBiDict [(['a'], ['b'])]).prefix_dict.prefixes) :=
  ⟨by decide,
    c10_new_adds_universal_fallback [(['a'], ['b'])] (by decide) ['z']⟩

/-- C9: the binary-search backend aborts on an empty backing store
(usize underflow in `arr.len() - 1`), so the very first
binary-search-backed `insert` into a default (empty) dictionary aborts
instead of returning normally; on non-empty stores it returns normally.
(`none` models the abort.) -/
theorem c9_binary_search_aborts_on_empty :
    (∀ t : Str, binary_search [] t = none)
    ∧ (∀ t : Str, PrefixMatchDict_insert_bin [] t = none)
    ∧ binary_search [['a']] ['b'] = some (.err 1)
    ∧ binary_search [['a'], ['c']] ['a'] = some (.ok 0) := by
  refine ⟨fun t => rfl, fun t => rfl, ?_, ?_⟩
  · simp [binary_search, binary_search_go, binary_search_exit]
    decide
  · simp [binary_search, binary_search_go, binary_search_exit]
    decide

/-! ### Cursor buffer accounting (C2) -/

theorem cursorInv_new (it : List T) : CursorInv (BufferIterator.new it) :=
  ⟨by simp [BufferIterator.new], fun _ => ⟨rfl, rfl⟩⟩

theorem cursorInv_head_next {st : BufferIterator T} (h : CursorInv st) :
    CursorInv (st.head_next).1 := by
  obtain ⟨it, buf, hd, bg, ed⟩ := st
  obtain ⟨h1, h2⟩ := h
  cases it with
  | nil => exact ⟨h1, h2⟩
  | cons x rest =>
    cases bg with
    | true =>
      refine ⟨?_, fun hh => Bool.noConfusion hh⟩
      show (buf ++ [x]).length ≤ hd + 1 + 1
      simp only [List.length_append, List.length_cons, List.length_nil]
      simp only at h1
      omega
    | false =>
      rcases h2 rfl with ⟨rfl, rfl⟩
      exact ⟨by show ([] ++ [x] : List T).length ≤ 0 + 1; simp,
        fun hh => Bool.noConfusion hh⟩

theorem cursorInv_buffer_next {st : BufferIterator T} (h : CursorInv st) :
    CursorInv (st.buffer_next).1 := by
  have hnext := cursorInv_head_next h
  obtain ⟨it, buf, hd, bg, ed⟩ := st
  cases buf with
  | nil =>
    obtain ⟨h1, h2⟩ := hnext
    show CursorInv
      (match (BufferIterator.head_next ⟨it, [], hd, bg, ed⟩).1.buffer with
        | [] => ((BufferIterator.head_next ⟨it, [], hd, bg, ed⟩).1, none)
        | x :: rest =>
          (⟨(BufferIterator.head_next ⟨it, [], hd, bg, ed⟩).1.iterator, rest,
            (BufferIterator.head_next ⟨it, [], hd, bg, ed⟩).1.head,
            (BufferIterator.head_next ⟨it, [], hd, bg, ed⟩).1.is_began,
            (BufferIterator.head_next ⟨it, [], hd, bg, ed⟩).1.is_ended⟩,
            some x)).1
    cases hb : (BufferIterator.head_next ⟨it, [], hd, bg, ed⟩).1.buffer with
    | nil =>
      simp only [hb]
      exact ⟨h1, h2⟩
    | cons y ys =>
      simp only [hb]
      rw [hb] at h1
      refine ⟨?_, ?_⟩
      · show ys.length ≤ (BufferIterator.head_next ⟨it, [], hd, bg, ed⟩).1.head + 1
        simp only [List.length_cons] at h1
        omega
      · intro hbg
        have habs := (h2 hbg).1
        rw [hb] at habs
        exact absurd habs (by simp)
  | cons x xs =>
    obtain ⟨h1, h2⟩ := h
    refine ⟨?_, ?_⟩
    · show xs.length ≤ hd + 1
      simp only [List.length_cons] at h1
      omega
    · intro hbg
      rcases h2 hbg with ⟨habs, _⟩
      exact absurd habs (by simp)

theorem cursorInv_runOps {st : BufferIterator T} (h : CursorInv st) :
    ∀ ops : List CursorOp, CursorInv (runOps st ops) := by
  intro ops
  induction ops generalizing st with
  | nil => exact h
  | cons op rest ih =>
    cases op with
    | peek => exact ih (cursorInv_head_next h)
    | consume => exact ih (cursorInv_buffer_next h)
/-- C2: after any sequence of `peek_extend` / `consume` calls from a
fresh cursor, `buffer_head = head + 1 − buffer.length` (exactly, also
over the integers — the subtraction never truncates), the buffer length
never exceeds `head + 1`, and once `began` holds the buffer is empty
iff `buffer_head > head`. -/
theorem c2_cursor_buffer_accounting {T : Type} (source : List T)
    (ops : List CursorOp) :
    (runOps (BufferIterator.new source) ops).len_buffer ≤
        (runOps (BufferIterator.new source) ops).head + 1
    ∧ (runOps (BufferIterator.new source) ops).buffer_head =
        (runOps (BufferIterator.new source) ops).head + 1 -
          (runOps (BufferIterator.new source) ops).len_buffer
    ∧ ((runOps (BufferIterator.new source) ops).buffer_head : Int) =
        ((runOps (BufferIterator.new source) ops).head : Int) + 1 -
          ((runOps (BufferIterator.new source) ops).len_buffer : Int)
    ∧ ((runOps (BufferIterator.new source) ops).is_began = true →
        ((runOps (BufferIterator.new source) ops).is_buffer_empty = true ↔
          (runOps (BufferIterator.new source) ops).head <
            (runOps (BufferIterator.new source) ops).buffer_head)) := by
  have hinv := cursorInv_runOps (cursorInv_new source) ops
  rcases hinv with ⟨h1, _⟩
  refine ⟨h1, rfl, ?_, ?_⟩
  · simp only [BufferIterator.buffer_head, BufferIterator.len_buffer]
    omega
  · intro _
    simp only [BufferIterator.buffer_head, BufferIterator.is_buffer_empty,
      List.isEmpty_iff, BufferIterator.len_buffer]
    rw [← List.length_eq_zero]
    omega

/-- Witness for C2 at a two-step run. -/
theorem c2_cursor_buffer_accounting_witness :
    (runOps (BufferIterator.new ['a', 'b']) [CursorOp.peek, CursorOp.consume]).len_buffer ≤
        (runOps (BufferIterator.new ['a', 'b']) [CursorOp.peek, CursorOp.consume]).head + 1
    ∧ (runOps (BufferIterator.new ['a', 'b']) [CursorOp.peek, CursorOp.consume]).buffer_head =
        (runOps (BufferIterator.new ['a', 'b']) [CursorOp.peek, CursorOp.consume]).head + 1 -
          (runOps (BufferIterator.new ['a', 'b']) [CursorOp.peek, CursorOp.consume]).len_buffer
    ∧ ((runOps (BufferIterator.new ['a', 'b']) [CursorOp.peek, CursorOp.consume]).buffer_head : Int) =
        ((runOps (BufferIterator.new ['a', 'b']) [CursorOp.peek, CursorOp.consume]).head : Int) + 1 -
          ((runOps (BufferIterator.new ['a', 'b']) [CursorOp.peek, CursorOp.consume]).len_buffer : Int)
    ∧ ((runOps (BufferIterator.new ['a', 'b']) [CursorOp.peek, CursorOp.consume]).is_began = true →
        ((runOps (BufferIterator.new ['a', 'b']) [CursorOp.peek, CursorOp.consume]).is_buffer_empty = true ↔
          (runOps (BufferIterator.new ['a', 'b']) [CursorOp.peek, CursorOp.consume]).head <
            (runOps (BufferIterator.new ['a', 'b']) [CursorOp.peek, CursorOp.consume]).buffer_head)) :=
  c2_cursor_buffer_accounting ['a', 'b'] [CursorOp.peek, CursorOp.consume]

/-! ### Skip-commit equivalence (C8) -/

theorem head_next_addFront (a : T) (st : BufferIterator T) :
    (addFront a st).head_next =
      (addFront a (st.head_next).1, (st.head_next).2) := by
  obtain ⟨it, buf, hd, bg, ed⟩ := st
  cases it with
  | nil => rfl
  | cons x rest =>
    cases bg with
    | true => rfl
    | false => rfl

theorem buffer_next_addFront (a : T) (st : BufferIterator T) :
    ((addFront a st).buffer_next).1 = st :=
  rfl

theorem consumeN_succ (n : Nat) (st : BufferIterator T) :
    consumeN (n + 1) st = consumeN n (st.buffer_next).1 :=
  rfl

theorem swSource_addFront [DecidableEq T] (a : T) :
    ∀ (pat : List T) (st : BufferIterator T),
      swSource (addFront a st) pat =
        (addFront a (swSource st pat).1, (swSource st pat).2) := by
  intro pat
  induction pat with
  | nil => intro st; rfl
  | cons o ps ih =>
    intro st
    simp only [swSource, head_next_addFront]
    cases hn : st.head_next with
    | mk st1 r =>
      cases r with
      | none => rfl
      | some s =>
        by_cases hso : s = o
        · simp only [hso, ne_eq, not_true_eq_false, if_false, ih st1]
        · simp only [ne_eq, hso, not_false_eq_true, if_true]

theorem head_next_remainder (st : BufferIterator T) :
    ((st.head_next).1).buffer ++ ((st.head_next).1).iterator =
      st.buffer ++ st.iterator := by
  obtain ⟨it, buf, hd, bg, ed⟩ := st
  cases it with
  | nil => rfl
  | cons x rest =>
    cases bg with
    | true => simp [BufferIterator.head_next]
    | false => simp [BufferIterator.head_next]

theorem swSource_remainder [DecidableEq T] :
    ∀ (pat : List T) (st : BufferIterator T),
      ((swSource st pat).1).buffer ++ ((swSource st pat).1).iterator =
        st.buffer ++ st.iterator := by
  intro pat
  induction pat with
  | nil => intro st; rfl
  | cons o ps ih =>
    intro st
    simp only [swSource]
    cases hn : st.head_next with
    | mk st1 r =>
      have hrem : st1.buffer ++ st1.iterator = st.buffer ++ st.iterator := by
        have := head_next_remainder st
        rw [hn] at this
        exact this
      cases r with
      | none => exact hrem
      | some s =>
        by_cases hso : s = o
        · simp only [hso, ne_eq, not_true_eq_false, if_false]
          rw [ih st1]
          exact hrem
        · simp only [ne_eq, hso, not_false_eq_true, if_true]
          exact hrem

theorem starts_with_remainder [DecidableEq T] (st : BufferIterator T)
    (pat : List T) :
    ((starts_with st pat).1).buffer ++ ((starts_with st pat).1).iterator =
      st.buffer ++ st.iterator := by
  unfold starts_with
  cases hsb : swBuffer st.buffer pat with
  | mk r1 rc =>
    cases r1 with
    | some b => rfl
    | none => exact swSource_remainder rc.1 st

theorem swSource_true_iff [DecidableEq T] :
    ∀ (pat : List T) (st : BufferIterator T),
      (swSource st pat).2.1 = true ↔ pat <+: st.iterator := by
  intro pat
  induction pat with
  | nil => intro st; simp [swSource]
  | cons o ps ih =>
    intro st
    simp only [swSource]
    cases hit : st.iterator with
    | nil =>
      have hn : st.head_next = (⟨st.iterator, st.buffer, st.head,
          st.is_began, true⟩, none) := by
        unfold BufferIterator.head_next
        rw [hit]
      rw [hn]
      simp
    | cons x rest =>
      obtain ⟨it, buf, hd, bg, ed⟩ := st
      simp only at hit
      subst hit
      cases bg with
      | true =>
        have hn : BufferIterator.head_next ⟨x :: rest, buf, hd, true, ed⟩ =
            (⟨rest, buf ++ [x], hd + 1, true, ed⟩, some x) := rfl
        rw [hn]
        by_cases hxo : x = o
        · subst hxo
          simp only [ne_eq, not_true_eq_false, if_false]
          rw [ih]
          simp [List.cons_prefix_cons]
        · simp only [ne_eq, hxo, not_false_eq_true, if_true]
          simp [List.cons_prefix_cons, Ne.symm hxo]
      | false =>
        have hn : BufferIterator.head_next ⟨x :: rest, buf, hd, false, ed⟩ =
            (⟨rest, buf ++ [x], hd, true, ed⟩, some x) := rfl
        rw [hn]
        by_cases hxo : x = o
        · subst hxo
          simp only [ne_eq, not_true_eq_false, if_false]
          rw [ih]
          simp [List.cons_prefix_cons]
        · simp only [ne_eq, hxo, not_false_eq_true, if_true]
          simp [List.cons_prefix_cons, Ne.symm hxo]

theorem swBuffer_true [DecidableEq T] :
    ∀ {b p rem : List T} {c : Nat}, swBuffer b p = (some true, rem, c) →
      c = p.length ∧ p <+: b := by
  intro b
  induction b with
  | nil =>
    intro p rem c h
    cases p with
    | nil =>
      simp only [swBuffer, Prod.mk.injEq] at h
      exact ⟨h.2.2.symm ▸ rfl, List.nil_prefix⟩
    | cons o ps => simp [swBuffer] at h
  | cons s bs ih =>
    intro p rem c h
    cases p with
    | nil =>
      simp only [swBuffer, Prod.mk.injEq] at h
      exact ⟨h.2.2.symm ▸ rfl, List.nil_prefix⟩
    | cons o ps =>
      by_cases hso : s = o
      · subst hso
        simp only [swBuffer, ne_eq, not_true_eq_false, if_false,
          Prod.mk.injEq] at h
        cases hr : swBuffer bs ps with
        | mk r1 rc =>
          rw [hr] at h
          simp only at h
          rcases h with ⟨h1, _, h3⟩
          rcases ih (by rw [hr, h1]) with ⟨hc, hp⟩
          subst h3
          exact ⟨by simp [hc], List.cons_prefix_cons.2 ⟨rfl, hp⟩⟩
      · simp [swBuffer, hso] at h

theorem swBuffer_none [DecidableEq T] :
    ∀ {b p rem : List T} {c : Nat}, swBuffer b p = (none, rem, c) →
      c = b.length ∧ p = b ++ rem := by
  intro b
  induction b with
  | nil =>
    intro p rem c h
    cases p with
    | nil => simp [swBuffer] at h
    | cons o ps =>
      simp only [swBuffer, Prod.mk.injEq] at h
      exact ⟨h.2.2.symm ▸ rfl, by rw [h.2.1]; rfl⟩
  | cons s bs ih =>
    intro p rem c h
    cases p with
    | nil => simp [swBuffer] at h
    | cons o ps =>
      by_cases hso : s = o
      · subst hso
        simp only [swBuffer, ne_eq, not_true_eq_false, if_false,
          Prod.mk.injEq] at h
        cases hr : swBuffer bs ps with
        | mk r1 rc =>
          rw [hr] at h
          simp only at h
          rcases h with ⟨h1, h2, h3⟩
          rcases ih (by rw [hr, h1]) with ⟨hc, hp⟩
          subst h3
          exact ⟨by simp [hc], by rw [hp, ← h2]; simp⟩
      · simp [swBuffer, hso] at h

theorem swBuffer_false [DecidableEq T] :
    ∀ {b p rem : List T} {c : Nat}, swBuffer b p = (some false, rem, c) →
      ∀ z : List T, ¬ p <+: b ++ z := by
  intro b
  induction b with
  | nil =>
    intro p rem c h
    cases p with
    | nil => simp [swBuffer] at h
    | cons o ps => simp [swBuffer] at h
  | cons s bs ih =>
    intro p rem c h
    cases p with
    | nil => simp [swBuffer] at h
    | cons o ps =>
      by_cases hso : s = o
      · subst hso
        simp only [swBuffer, ne_eq, not_true_eq_false, if_false,
          Prod.mk.injEq] at h
        cases hr : swBuffer bs ps with
        | mk r1 rc =>
          rw [hr] at h
          simp only at h
          rcases h with ⟨h1, _, _⟩
          intro z hpre
          rcases List.cons_prefix_cons.1 hpre with ⟨_, hps⟩
          exact ih (by rw [hr, h1]) z hps
      · intro z hpre
        rcases List.cons_prefix_cons.1 hpre with ⟨ho, _⟩
        exact hso ho.symm

theorem starts_with_empty_buffer [DecidableEq T] (st : BufferIterator T)
    (hb : st.buffer = []) (pat : List T) :
    starts_with st pat =
      ((swSource st pat).1, (swSource st pat).2.1, (swSource st pat).2.2) := by
  unfold starts_with
  rw [hb]
  cases pat with
  | nil => simp [swBuffer, swSource]
  | cons o ps => simp [swBuffer]

/-- The probe outcome of `starts_with` is exactly "the pattern is a
p-refix of the unconsumed remainder (buffer then source)". -/
theorem starts_with_true_iff [DecidableEq T] (st : BufferIterator T)
    (p : List T) :
    (starts_with st p).2.1 = true ↔ p <+: st.buffer ++ st.iterator := by
  unfold starts_with
  cases hsb : swBuffer st.buffer p with
  | mk r1 rc =>
    cases r1 with
    | some b =>
      cases b
      · simp only [Bool.false_eq_true, false_iff]
        exact swBuffer_false hsb st.iterator
      · simp only [true_iff]
        exact (swBuffer_true hsb).2.trans (List.prefix_append _ _)
    | none =>
      simp only
      rw [swSource_true_iff]
      rcases swBuffer_none hsb with ⟨_, rfl⟩
      exact (List.prefix_append_right_inj st.buffer).symm

theorem swBuffer_nil_pat [DecidableEq T] (b : List T) :
    swBuffer b ([] : List T) = (some true, [], 0) := by
  cases b <;> rfl

/-- On a successful probe, the counted pattern consumption equals the
pattern length, and committing that many `buffer_next` calls from the
probed state reaches exactly the state that the same number of
`buffer_next` calls from the original state reaches. -/
theorem starts_with_commit [DecidableEq T] :
    ∀ (p : List T) (st : BufferIterator T),
      (starts_with st p).2.1 = true →
      (starts_with st p).2.2 = p.length ∧
        consumeN (starts_with st p).2.2 (starts_with st p).1 =
          consumeN p.length st := by
  intro p
  induction p with
  | nil =>
    intro st _
    unfold starts_with
    rw [swBuffer_nil_pat]
    exact ⟨rfl, rfl⟩
  | cons o ps ih =>
    intro st htrue
    obtain ⟨it, buf, hd, bg, ed⟩ := st
    cases buf with
    | nil =>
      rw [starts_with_empty_buffer _ rfl] at htrue ⊢
      cases it with
      | nil => simp [swSource, BufferIterator.head_next] at htrue
      | cons x rest =>
        cases bg with
        | true =>
          have hn : BufferIterator.head_next ⟨x :: rest, [], hd, true, ed⟩ =
              (addFront x ⟨rest, [], hd + 1, true, ed⟩, some x) := rfl
          simp only [swSource, hn] at htrue ⊢
          by_cases hxo : x = o
          · subst hxo
            simp only [ne_eq, not_true_eq_false, if_false,
              swSource_addFront] at htrue ⊢
            have hbr := starts_with_empty_buffer ⟨rest, [], hd + 1, true, ed⟩
              rfl ps
            have htrue' : (starts_with (⟨rest, [], hd + 1, true, ed⟩ :
                BufferIterator T) ps).2.1 = true := by rw [hbr]; exact htrue
            rcases ih ⟨rest, [], hd + 1, true, ed⟩ htrue' with ⟨hc, hs⟩
            rw [hbr] at hc hs
            simp only at hc hs
            rw [hc] at hs
            constructor
            · simp [hc]
            · rw [consumeN_succ, buffer_next_addFront, hc, hs]
              show consumeN ps.length
                  (⟨rest, [], hd + 1, true, ed⟩ : BufferIterator T) =
                consumeN (ps.length + 1) ⟨x :: rest, [], hd, true, ed⟩
              rw [consumeN_succ]
              rfl
          · simp [ne_eq, hxo] at htrue
        | false =>
          have hn : BufferIterator.head_next ⟨x :: rest, [], hd, false, ed⟩ =
              (addFront x ⟨rest, [], hd, true, ed⟩, some x) := rfl
          simp only [swSource, hn] at htrue ⊢
          by_cases hxo : x = o
          · subst hxo
            simp only [ne_eq, not_true_eq_false, if_false,
              swSource_addFront] at htrue ⊢
            have hbr := starts_with_empty_buffer ⟨rest, [], hd, true, ed⟩
              rfl ps
            have htrue' : (starts_with (⟨rest, [], hd, true, ed⟩ :
                BufferIterator T) ps).2.1 = true := by rw [hbr]; exact htrue
            rcases ih ⟨rest, [], hd, true, ed⟩ htrue' with ⟨hc, hs⟩
            rw [hbr] at hc hs
            simp only at hc hs
            rw [hc] at hs
            constructor
            · simp [hc]
            · rw [consumeN_succ, buffer_next_addFront, hc, hs]
              show consumeN ps.length
                  (⟨rest, [], hd, true, ed⟩ : BufferIterator T) =
                consumeN (ps.length + 1) ⟨x :: rest, [], hd, false, ed⟩
              rw [consumeN_succ]
              rfl
          · simp [ne_eq, hxo] at htrue
    | cons b bs =>
      by_cases hbo : b = o
      · subst hbo
        unfold starts_with at htrue ⊢
        cases hr : swBuffer bs ps with
        | mk r1 rc =>
          have hsw : swBuffer (b :: bs) (b :: ps) = (r1, rc.1, rc.2 + 1) := by
            simp only [swBuffer, ne_eq, not_true_eq_false, if_false, hr]
          rw [hsw] at htrue ⊢
          cases r1 with
          | some bb =>
            simp only at htrue ⊢
            have hT : starts_with (⟨it, bs, hd, bg, ed⟩ : BufferIterator T) ps =
                ((⟨it, bs, hd, bg, ed⟩ : BufferIterator T), bb, rc.2) := by
              unfold starts_with
              rw [hr]
            have htrue' : (starts_with (⟨it, bs, hd, bg, ed⟩ :
                BufferIterator T) ps).2.1 = true := by rw [hT]; exact htrue
            rcases ih _ htrue' with ⟨hc, hs⟩
            rw [hT] at hc hs
            simp only at hc hs
            constructor
            · simp [hc]
            · rw [consumeN_succ, hc]
              show consumeN ps.length
                  ((BufferIterator.buffer_next ⟨it, b :: bs, hd, bg, ed⟩).1) =
                consumeN (ps.length + 1) ⟨it, b :: bs, hd, bg, ed⟩
              rw [consumeN_succ]
          | none =>
            simp only at htrue ⊢
            have hst : (⟨it, b :: bs, hd, bg, ed⟩ : BufferIterator T) =
                addFront b ⟨it, bs, hd, bg, ed⟩ := rfl
            rw [hst, swSource_addFront] at htrue ⊢
            simp only at htrue ⊢
            have hT : (starts_with (⟨it, bs, hd, bg, ed⟩ : BufferIterator T) ps).2.1 =
                (swSource (⟨it, bs, hd, bg, ed⟩ : BufferIterator T) rc.1).2.1 := by
              unfold starts_with
              rw [hr]
            have hTc : (starts_with (⟨it, bs, hd, bg, ed⟩ : BufferIterator T) ps).2.2 =
                rc.2 + (swSource (⟨it, bs, hd, bg, ed⟩ : BufferIterator T) rc.1).2.2 := by
              unfold starts_with
              rw [hr]
            have hTs : (starts_with (⟨it, bs, hd, bg, ed⟩ : BufferIterator T) ps).1 =
                (swSource (⟨it, bs, hd, bg, ed⟩ : BufferIterator T) rc.1).1 := by
              unfold starts_with
              rw [hr]
            have htrue' : (starts_with (⟨it, bs, hd, bg, ed⟩ :
                BufferIterator T) ps).2.1 = true := by rw [hT]; exact htrue
            rcases ih _ htrue' with ⟨hc, hs⟩
            rw [hTc] at hc
            rw [hTc, hTs] at hs
            constructor
            · simp only [List.length_cons]
              omega
            · have hidx : rc.2 + 1 +
                  (swSource (⟨it, bs, hd, bg, ed⟩ : BufferIterator T) rc.1).2.2 =
                  (rc.2 + (swSource (⟨it, bs, hd, bg, ed⟩ :
                    BufferIterator T) rc.1).2.2) + 1 := by omega
              rw [hidx, consumeN_succ, buffer_next_addFront, hs]
              show consumeN ps.length (⟨it, bs, hd, bg, ed⟩ : BufferIterator T) =
                consumeN (ps.length + 1) (addFront b ⟨it, bs, hd, bg, ed⟩)
              rw [consumeN_succ, buffer_next_addFront]
      · unfold starts_with at htrue
        have hsw : swBuffer (b :: bs) (o :: ps) = (some false, ps, 1) := by
          simp only [swBuffer, ne_eq, hbo, not_false_eq_true, if_true]
        rw [hsw] at htrue
        simp at htrue

/-- C8 counterexample: a failed `skip_when_starts_with` does NOT leave
the cursor state untouched — probing `"ax"` against the source `"ab"`
returns false but has moved both elements into the buffer. -/
theorem c8_skip_fail_mutates_state :
    (skip_when_starts_with (BufferIterator.new ['a', 'b']) ['a', 'x']).2 = false
    ∧ (skip_when_starts_with (BufferIterator.new ['a', 'b']) ['a', 'x']).1 ≠
        BufferIterator.new ['a', 'b']
    ∧ (skip_when_starts_with (BufferIterator.new ['a', 'b']) ['a', 'x']).1 =
        ⟨[], ['a', 'b'], 1, true, false⟩ := by
  refine ⟨by decide, by decide, by decide⟩

/-- C8 amended: `skip_when_starts_with(p)` returns true iff the
remaining input (buffer then source) starts with `p`; on success the
cursor is left in exactly the state that `p.length` sequential
`buffer_next` calls from the prior state produce; on failure no element
is consumed — the unconsumed remainder is unchanged — though the probe
may have moved elements from the source into the buffer. -/
theorem c8_skip_commit_equivalence {T : Type} [DecidableEq T]
    (st : BufferIterator T) (p : List T) :
    ((skip_when_starts_with st p).2 = true ↔ p <+: st.buffer ++ st.iterator)
    ∧ ((skip_when_starts_with st p).2 = true →
        (skip_when_starts_with st p).1 = consumeN p.length st)
    ∧ ((skip_when_starts_with st p).2 = false →
        ((skip_when_starts_with st p).1).buffer ++
            ((skip_when_starts_with st p).1).iterator =
          st.buffer ++ st.iterator) := by
  cases hb : (starts_with st p).2.1 with
  | true =>
    have hskip : skip_when_starts_with st p =
        (consumeN (starts_with st p).2.2 (starts_with st p).1, true) := by
      unfold skip_when_starts_with
      simp only [hb, if_true]
    rcases starts_with_commit p st hb with ⟨hc, hs⟩
    rw [hskip]
    refine ⟨Iff.intro (fun _ => (starts_with_true_iff st p).1 hb)
      (fun _ => rfl), fun _ => ?_, fun habs => Bool.noConfusion habs⟩
    show consumeN (starts_with st p).2.2 (starts_with st p).1 =
      consumeN p.length st
    exact hs
  | false =>
    have hskip : skip_when_starts_with st p = ((starts_with st p).1, false) := by
      unfold skip_when_starts_with
      simp only [hb, Bool.false_eq_true, if_false]
    rw [hskip]
    refine ⟨?_, fun habs => Bool.noConfusion habs,
      fun _ => starts_with_remainder st p⟩
    constructor
    · intro habs
      exact Bool.noConfusion habs
    · intro hpre
      have hcontra := (starts_with_true_iff st p).2 hpre
      rw [hb] at hcontra
      exact hcontra

/-- Witness for C8 at the cursor over `"abc"` and the pattern `"ab"`. -/
theorem c8_skip_commit_equivalence_witness :
    ((skip_when_starts_with (BufferIterator.new ['a', 'b', 'c']) ['a', 'b']).2 = true ↔
        ['a', 'b'] <+: (BufferIterator.new ['a', 'b', 'c']).buffer ++
          (BufferIterator.new ['a', 'b', 'c']).iterator)
    ∧ ((skip_when_starts_with (BufferIterator.new ['a', 'b', 'c']) ['a', 'b']).2 = true →
        (skip_when_starts_with (BufferIterator.new ['a', 'b', 'c']) ['a', 'b']).1 =
          consumeN (['a', 'b'] : List Char).length (BufferIterator.new ['a', 'b', 'c']))
    ∧ ((skip_when_starts_with (BufferIterator.new ['a', 'b', 'c']) ['a', 'b']).2 = false →
        ((skip_when_starts_with (BufferIterator.new ['a', 'b', 'c']) ['a', 'b']).1).buffer ++
            ((skip_when_starts_with (BufferIterator.new ['a', 'b', 'c']) ['a', 'b']).1).iterator =
          (BufferIterator.new ['a', 'b', 'c']).buffer ++
            (BufferIterator.new ['a', 'b', 'c']).iterator) :=
  c8_skip_commit_equivalence (BufferIterator.new ['a', 'b', 'c']) ['a', 'b']
